import Mathlib

/-!
A verification development for the core of ForgeDB, an embedded LSM
key-value store.  The Go source is shallowly embedded: byte strings are
`List Nat` (each element one byte), files are byte lists, fallible
operations return `Option`, and machine-integer truncation is written as
`% 2^32` / `% 2^64` where the source converts to `uint32` / `uint64`.
-/

namespace ForgeDB

/-- lower 32 bits, as Go's uint32 conversion. -/
def w32 (n : Nat) : Nat := n % 4294967296

/-- lower 64 bits, as Go's uint64 arithmetic. -/
def w64 (n : Nat) : Nat := n % 18446744073709551616

/-- little-endian 4-byte encoding of a `uint32` value, as
`binary.Write(w, binary.LittleEndian, uint32(n))`. -/
def u32le (n : Nat) : List Nat :=
  [n % 256, n / 256 % 256, n / 65536 % 256, n / 16777216 % 256]

/-- little-endian 8-byte encoding of a `uint64` value. -/
def u64le (n : Nat) : List Nat :=
  [n % 256, n / 256 % 256, n / 65536 % 256, n / 16777216 % 256,
   n / 4294967296 % 256, n / 1099511627776 % 256,
   n / 281474976710656 % 256, n / 72057594037927936 % 256]

/-- read a little-endian `uint32` from the head of a byte stream, as
`binary.Read(r, binary.LittleEndian, &x)` for a `uint32`; `none` models
the read error (EOF or short read). -/
def readU32 : List Nat → Option (Nat × List Nat)
  | a :: b :: c :: d :: rest => some (a + 256 * b + 65536 * c + 16777216 * d, rest)
  | _ => none

/-- read a little-endian `uint64` from the head of a byte stream. -/
def readU64 : List Nat → Option (Nat × List Nat)
  | a :: b :: c :: d :: e :: f :: g :: h :: rest =>
      some (a + 256 * b + 65536 * c + 16777216 * d + 4294967296 * e
              + 1099511627776 * f + 281474976710656 * g
              + 72057594037927936 * h, rest)
  | _ => none

/-- read exactly `n` bytes, as `io.ReadFull`; `none` models the short-read
error. -/
def takeExact (n : Nat) (l : List Nat) : Option (List Nat × List Nat) :=
  if n ≤ l.length then some (l.take n, l.drop n) else none

/-- Go's `<` on strings: lexicographic, unsigned byte order, a strict
prefix is smaller. -/
def ltKey : List Nat → List Nat → Bool
  | [], [] => false
  | [], _ :: _ => true
  | _ :: _, [] => false
  | a :: as, b :: bs => if a < b then true else if b < a then false else ltKey as bs

/-! ## WAL (internal/wal/wal.go)

The WAL file is modelled as the byte list the appends produce; `Replay`
parses it back.  Record layout:
`| op(1B) | keyLen(uint32) | valLen(uint32) | key bytes | val bytes |`. -/

/-- a parsed WAL record, as `wal.Record`. -/
structure WRecord where
  op : Nat
  key : List Nat
  value : List Nat
deriving DecidableEq, Repr

/-- the bytes `WAL.AppendPut(key, value)` appends: op byte 0, keyLen,
valLen, key bytes, value bytes. -/
def appendPutBytes (key value : List Nat) : List Nat :=
  0 :: (u32le key.length ++ u32le value.length ++ key ++ value)

/-- the bytes `WAL.AppendDelete(key)` appends: op byte 1, keyLen,
valLen = 0, key bytes, no value bytes. -/
def appendDeleteBytes (key : List Nat) : List Nat :=
  1 :: (u32le key.length ++ u32le 0 ++ key)

/-- parse one WAL record from the head of the stream, as one iteration of
the loop in `Replay`: read op, keyLen, valLen, key bytes, value bytes,
then validate the op byte (0 or 1).  `none` is `ErrCorruptWAL`. -/
def readRecord (l : List Nat) : Option (WRecord × List Nat) :=
  match l with
  | [] => none
  | op :: r0 =>
    (readU32 r0).bind fun p1 =>
    (readU32 p1.2).bind fun p2 =>
    (takeExact p1.1 p2.2).bind fun p3 =>
    (takeExact p2.1 p3.2).bind fun p4 =>
    if op = 0 ∨ op = 1 then some (⟨op, p3.1, p4.1⟩, p4.2) else none

/-- `Replay` over the in-memory byte list: repeatedly parse records until
the stream is empty; an empty stream at a record boundary is a clean EOF.
`none` models `ErrCorruptWAL` / the dropped partial result. -/
def replay (l : List Nat) : Option (List WRecord) :=
  match l with
  | [] => some []
  | op :: r0 =>
    match h : readRecord (op :: r0) with
    | none => none
    | some (r, rest) =>
      match replay rest with
      | none => none
      | some rs => some (r :: rs)
termination_by l.length
decreasing_by
  have hU32 : ∀ {l2 rest2 : List Nat} {v : Nat},
      readU32 l2 = some (v, rest2) → rest2.length + 4 = l2.length := by
    intro l2 rest2 v hx
    unfold readU32 at hx
    split at hx
    · injection hx with hx2
      injection hx2 with hx3 hx4
      subst hx4
      simp
    · exact absurd hx (by simp)
  have hTE : ∀ {n : Nat} {l2 a b : List Nat},
      takeExact n l2 = some (a, b) → a.length = n ∧ b.length + n = l2.length := by
    intro n l2 a b hx
    unfold takeExact at hx
    split at hx
    · injection hx with hx2
      injection hx2 with hx3 hx4
      subst hx3
      subst hx4
      constructor
      · simp
        omega
      · simp
        omega
    · exact absurd hx (by simp)
  unfold readRecord at h
  simp only at h
  cases h0 : readU32 r0 with
  | none => simp [h0] at h
  | some p0 =>
    rw [h0, Option.some_bind] at h
    cases h1 : readU32 p0.2 with
    | none => simp [h1] at h
    | some p1 =>
      rw [h1, Option.some_bind] at h
      cases h2 : takeExact p0.1 p1.2 with
      | none => simp [h2] at h
      | some p2 =>
        rw [h2, Option.some_bind] at h
        cases h3 : takeExact p1.1 p2.2 with
        | none => simp [h3] at h
        | some p3 =>
          rw [h3, Option.some_bind] at h
          have l0 := hU32 h0
          have l1 := hU32 h1
          have l2 := hTE h2
          have l3 := hTE h3
          split at h
          · injection h with hh
            injection hh with hh1 hh2
            subst hh2
            simp only [List.length_cons]
            omega
          · exact absurd h (by simp)

/-- one logical WAL operation issued by the engine. -/
inductive WOp
  | put (key value : List Nat)
  | del (key : List Nat)

/-- the bytes one append writes. -/
def wopBytes : WOp → List Nat
  | .put k v => appendPutBytes k v
  | .del k => appendDeleteBytes k

/-- the record `Replay` is expected to return for one operation. -/
def wopRecord : WOp → WRecord
  | .put k v => ⟨0, k, v⟩
  | .del k => ⟨1, k, []⟩

/-- the whole WAL file bytes after a sequence of appends on a fresh WAL. -/
def walFileBytes (ops : List WOp) : List Nat :=
  (ops.map wopBytes).flatten

/-- key and value fit in the `uint32` length fields. -/
def wopSmall : WOp → Prop
  | .put k v => k.length < 4294967296 ∧ v.length < 4294967296
  | .del k => k.length < 4294967296

/-! ## Entries and the engine read path (internal/db/db.go)

`DB.Get` composes the memtable lookup with the newest-first walk over the
SSTable stack.  The memtable hit and each `sstable.Get` call are supplied
as data: a hit is the stored `Entry` (what `mem.GetAll` returns, tombstone
included), and each stack element is the `(value, result, error)` triple
that `sstable.Get(path, key)` returned for that file. -/

/-- `types.Entry`. -/
structure EntryM where
  key : List Nat
  value : List Nat
  tombstone : Bool
deriving DecidableEq, Repr

/-- `sstable.GetResult`. -/
inductive GetResult
  | NotFound
  | Found
  | Deleted
deriving DecidableEq, Repr

/-- the `(value, result, error-present)` triple one `sstable.Get` call
returned. -/
structure SstAnswer where
  value : List Nat
  res : GetResult
  err : Bool
deriving DecidableEq, Repr

/-- the newest-first loop over `d.sstables` in `DB.Get`: an error yields
not-present, `Found` yields the value, `Deleted` short-circuits to
not-present, `NotFound` continues. -/
def sstWalk : List SstAnswer → Option (List Nat)
  | [] => none
  | t :: rest =>
    if t.err then none
    else
      match t.res with
      | .Found => some t.value
      | .Deleted => none
      | .NotFound => sstWalk rest

/-- `DB.Get`: memtable first (a tombstone hit is not-present, any other
hit returns its value), then the SSTable stack walk. -/
def dbGet (memHit : Option EntryM) (tabs : List SstAnswer) : Option (List Nat) :=
  match memHit with
  | some e => if e.tombstone then none else some e.value
  | none => sstWalk tabs

/-! ## Flush and WAL truncation (internal/db/db.go, DB.Flush)

The engine state is the SSTable id stack (newest first), the next file
id, the drained memtable contents (`mem.RangeAll("", "")`), and the WAL
file bytes.  The filesystem operations `WriteTable`, `os.Rename`,
`wal.Close`, `os.WriteFile` and `wal.Open` are supplied as success flags;
`dbFlush` is the control flow of `DB.Flush` over them. -/

/-- the engine state `DB.Flush` reads and writes. -/
structure DBState where
  mem : List EntryM
  sstables : List Nat
  nextID : Nat
  walBytes : List Nat
deriving DecidableEq, Repr

/-- which step of `DB.Flush` failed. -/
inductive FlushErr
  | writeFail
  | renameFail
  | walCloseFail
  | walTruncFail
  | walReopenFail
deriving DecidableEq, Repr

/-- success flags for the five fallible filesystem steps of `DB.Flush`. -/
structure FlushEnv where
  writeOk : Bool
  renameOk : Bool
  closeOk : Bool
  truncOk : Bool
  reopenOk : Bool
deriving DecidableEq, Repr

/-- result of `DB.Flush`: the state left behind, the returned error, and
whether `os.Remove(tmp)` was invoked on the temporary file. -/
structure FlushResult where
  state : DBState
  err : Option FlushErr
  tmpRemoved : Bool
deriving DecidableEq, Repr

/-- `DB.Flush`: drain the memtable (empty drains return at once); write
the temp SSTable and rename it, deleting the temp file on failure;
publish the new table at the head of the stack, bump the id, reset the
memtable; then close the WAL, overwrite it with zero bytes, and reopen
it, propagating any of those errors. -/
def dbFlush (s : DBState) (env : FlushEnv) : FlushResult :=
  if s.mem = [] then ⟨s, none, false⟩
  else if env.writeOk = false then ⟨s, some .writeFail, true⟩
  else if env.renameOk = false then ⟨s, some .renameFail, true⟩
  else
    let s1 : DBState :=
      { s with sstables := s.nextID :: s.sstables, nextID := s.nextID + 1, mem := [] }
    if env.closeOk = false then ⟨s1, some .walCloseFail, false⟩
    else if env.truncOk = false then ⟨s1, some .walTruncFail, false⟩
    else if env.reopenOk = false then ⟨{ s1 with walBytes := [] }, some .walReopenFail, false⟩
    else ⟨{ s1 with walBytes := [] }, none, false⟩

/-! ## SSTable (internal/sstable)

File layout: `[header][data region][sparse index][bloom][footer]`.
Files are byte lists; `WriteTable` produces one, `Get` parses one. -/

def indexStride : Nat := 32

def headerSize : Nat := 8

def footerSize : Nat := 16

def maxIndexKeySize : Nat := 1048576

def maxIndexCount : Nat := 1048576

/-- the magic `0x46534442`. -/
def sstMagic : Nat := 0x46534442

/-- `sstable.indexEntry`. -/
structure IndexEntryM where
  key : List Nat
  offset : Nat
deriving DecidableEq, Repr

/-- one data-region record:
`| keyLen(u32) | valLen(u32) | tomb(1B) | key | value |`.  `WriteTable`
writes `valLen = len(e.Value)` and the value bytes whenever they are
non-empty, for tombstones too. -/
def encRecord (e : EntryM) : List Nat :=
  u32le e.key.length ++ u32le e.value.length ++
    [if e.tombstone then 1 else 0] ++ e.key ++ e.value

/-- the record loop of `WriteTable`: emit each record at its running
offset and collect an index entry for every `indexStride`-th record. -/
def buildData : List EntryM → Nat → Nat → List Nat × List IndexEntryM
  | [], _off, _i => ([], [])
  | e :: rest, off, i =>
    let rb := encRecord e
    let p := buildData rest (off + rb.length) (i + 1)
    (rb ++ p.1, if i % indexStride = 0 then ⟨e.key, off⟩ :: p.2 else p.2)

/-- `sstable.bloom`. -/
structure BloomM where
  m : Nat
  k : Nat
  b : List Nat
deriving DecidableEq, Repr

/-- `newBloom`: clamp `m` below 8, allocate `(m+7)/8` zero bytes. -/
def newBloom (m k : Nat) : BloomM :=
  let m' := if m < 8 then 8 else m
  ⟨m', k, List.replicate ((m' + 7) / 8) 0⟩

/-- FNV-1a 64 inner loop: `h = (h ^ byte) * 0x100000001b3` mod 2^64. -/
def fnv64aAux : List Nat → Nat → Nat
  | [], h => h
  | b :: bs, h => fnv64aAux bs (w64 ((h ^^^ b) * 0x100000001b3))

/-- `fnv64a`: FNV-1a of the key with the standard 64-bit offset basis. -/
def fnv64a (s : List Nat) : Nat := fnv64aAux s 0xcbf29ce484222325

/-- `mix64`: the 64-bit SplitMix64 / MurmurHash3 finalizer. -/
def mix64 (x0 : Nat) : Nat :=
  let x1 := x0 ^^^ (x0 >>> 33)
  let x2 := w64 (x1 * 0xff51afd7ed558ccd)
  let x3 := x2 ^^^ (x2 >>> 33)
  let x4 := w64 (x3 * 0xc4ceb9fe1a85ec53)
  x4 ^^^ (x4 >>> 33)

/-- the double-hashing pair `h1, h2 = mix64(h1 ^ 0x9e3779b97f4a7c15)`. -/
def bloomHashPair (key : List Nat) : Nat × Nat :=
  let h1 := fnv64a key
  (h1, mix64 (h1 ^^^ 0x9e3779b97f4a7c15))

/-- `bloom.get`: test bit `i` of the bitset. -/
def bloomGetBit (b : List Nat) (i : Nat) : Bool :=
  Nat.testBit (b.getD (i / 8) 0) (i % 8)

/-- `bloom.set`: set bit `i` of the bitset. -/
def bloomSetBit (b : List Nat) (i : Nat) : List Nat :=
  b.set (i / 8) (b.getD (i / 8) 0 ||| (1 <<< (i % 8)))

/-- the `k`-tap loop of `bloom.add`; the `i`-th tap position is
`(h1 + i*h2) mod 2^64 mod m`. -/
def bloomAddAux (b : List Nat) (m h1 h2 i : Nat) : Nat → List Nat
  | 0 => b
  | n + 1 => bloomAddAux (bloomSetBit b (w64 (h1 + i * h2) % m)) m h1 h2 (i + 1) n

/-- `bloom.add`. -/
def bloomAdd (bf : BloomM) (key : List Nat) : BloomM :=
  let p := bloomHashPair key
  { bf with b := bloomAddAux bf.b bf.m p.1 p.2 0 bf.k }

/-- the `k`-tap loop of `mayContain`: false as soon as one tap bit is
unset. -/
def mayContainAux (b : List Nat) (m h1 h2 i : Nat) : Nat → Bool
  | 0 => true
  | n + 1 =>
    if bloomGetBit b (w64 (h1 + i * h2) % m) then mayContainAux b m h1 h2 (i + 1) n
    else false

/-- `bloom.mayContain`. -/
def mayContain (bf : BloomM) (key : List Nat) : Bool :=
  let p := bloomHashPair key
  mayContainAux bf.b bf.m p.1 p.2 0 bf.k

/-- `bloom.marshal`: `| m(u32) | k(u8) | pad(3B) | bitsetLen(u32) | bitset |`. -/
def bloomMarshal (bf : BloomM) : List Nat :=
  u32le bf.m ++ [bf.k % 256, 0, 0, 0] ++ u32le bf.b.length ++ bf.b

/-- split off the head byte, as `bufio.Reader.ReadByte`. -/
def readByte : List Nat → Option (Nat × List Nat)
  | [] => none
  | a :: as => some (a, as)

/-- `unmarshalBloom`: `m` (u32), `k` (u8), 3 padding bytes, the bitset
length `n` (u32), then the bitset; reject fewer than 12 bytes, `m = 0`,
`k = 0`, `n = 0`, or a length `12 + n` different from the input
length. -/
def unmarshalBloom (p : List Nat) : Option BloomM :=
  (readU32 p).bind fun p1 =>
  (readByte p1.2).bind fun kb =>
  (takeExact 3 kb.2).bind fun pad =>
  (readU32 pad.2).bind fun p2 =>
  if p1.1 = 0 ∨ kb.1 = 0 then none
  else if 12 + p2.1 ≠ p.length ∨ p2.1 = 0 then none
  else some ⟨p1.1, kb.1, p2.2.take p2.1⟩

/-- `WriteTable`: header, data records (adding every key to a fresh
`newBloom(1<<20, 7)` filter), the sparse index, the marshalled bloom, and
the footer holding `indexStartOffset` then `bloomStartOffset`. -/
def writeTableBytes (entries : List EntryM) : List Nat :=
  let hdr := u32le sstMagic ++ u32le entries.length
  let p := buildData entries headerSize 0
  let bf := entries.foldl (fun a e => bloomAdd a e.key) (newBloom 1048576 7)
  let indexStart := headerSize + p.1.length
  let idxBytes := u32le p.2.length ++
    (p.2.map (fun it => u32le it.key.length ++ it.key ++ u64le it.offset)).flatten
  let bloomStart := indexStart + idxBytes.length
  hdr ++ p.1 ++ idxBytes ++ bloomMarshal bf ++ u64le indexStart ++ u64le bloomStart

/-- outcome of `sstable.Get` (and of its scan loop): the
`(value, GetResult, error)` triple collapsed to one constructor per
distinct behaviour.  `corrupt` is `ErrCorruptSST`; `ioErr` is any other
propagated error. -/
inductive SstOut
  | ioErr
  | corrupt
  | notFound
  | deleted
  | found (v : List Nat)
deriving DecidableEq, Repr

/-- succeed with the optional value or finish the scan with outcome `e`
(the error each read failure maps to in the scan loop of `Get`). -/
def orOut {α : Type} (o : Option α) (e : SstOut) : Except SstOut α :=
  match o with
  | some a => .ok a
  | none => .error e

/-- one iteration of the sequential record scan of `Get`: read `keyLen`
(a failed read is a clean end, `NotFound`), `valLen`, the tombstone
byte, the key and the value (each of those failures is `ErrCorruptSST`);
a record with the target key yields `Deleted` or `Found`, a greater key
stops with `NotFound`, a smaller key continues with the remaining bytes
(`Except.ok`). -/
def scanStep (bytes target : List Nat) : Except SstOut (List Nat) :=
  (orOut (readU32 bytes) .notFound).bind fun p1 =>
  (orOut (readU32 p1.2) .corrupt).bind fun p2 =>
  (orOut (readByte p2.2) .corrupt).bind fun tr =>
  (orOut (takeExact p1.1 tr.2) .corrupt).bind fun p3 =>
  (orOut (takeExact p2.1 p3.2) .corrupt).bind fun p4 =>
  if p3.1 = target then .error (if tr.1 = 1 then .deleted else .found p4.1)
  else if ltKey target p3.1 then .error .notFound
  else .ok p4.2

/-- the scan loop with explicit fuel; each iteration consumes at least 9
bytes, so the fuel `scanGet` supplies is never exhausted (see
`scanGetFuel_eq_scanGet`) and the 0-fuel branch is unreachable. -/
def scanGetFuel : Nat → List Nat → List Nat → SstOut
  | 0, _, _ => .corrupt
  | fuel + 1, bytes, target =>
    match scanStep bytes target with
    | .error r => r
    | .ok r5 => scanGetFuel fuel r5 target

/-- the sequential record scan of `Get` over the selected byte range. -/
def scanGet (bytes target : List Nat) : SstOut :=
  scanGetFuel (bytes.length + 1) bytes target

/-- the contiguous byte slice `[a, b)` of a file, as an
`io.NewSectionReader` region. -/
def listSlice (l : List Nat) (a b : Nat) : List Nat := (l.drop a).take (b - a)

/-- read a little-endian `uint32` at absolute offset `p`. -/
def readU32At (l : List Nat) (p : Nat) : Option Nat :=
  match listSlice l p (p + 4) with
  | [a, b, c, d] => some (a + 256 * b + 65536 * c + 16777216 * d)
  | _ => none

/-- read a little-endian `uint64` at absolute offset `p`. -/
def readU64At (l : List Nat) (p : Nat) : Option Nat :=
  match listSlice l p (p + 8) with
  | [a, b, c, d, e, f, g, h] =>
      some (a + 256 * b + 65536 * c + 16777216 * d + 4294967296 * e
              + 1099511627776 * f + 281474976710656 * g
              + 72057594037927936 * h)
  | _ => none

/-- `loadFooter`: read the final 16 bytes as `indexStartOffset` then
`bloomStartOffset` and validate
`headerSize ≤ iS < bS < fileSize - footerSize`. -/
def loadFooter (file : List Nat) : Option (Nat × Nat) :=
  if file.length < headerSize + footerSize then none
  else
    (readU64At file (file.length - footerSize)).bind fun iS =>
    (readU64At file (file.length - footerSize + 8)).bind fun bS =>
    if iS < headerSize then none
    else if file.length - footerSize ≤ iS then none
    else if bS ≤ iS then none
    else if file.length - footerSize ≤ bS then none
    else some (iS, bS)

/-- the per-entry loop of `loadIndex`: read `keyLen` (rejecting 0 and
anything over `maxIndexKeySize`), the key bytes, and the record offset
(rejecting anything outside `[headerSize, indexStartOffset)`). -/
def parseIndexEntries : Nat → List Nat → Nat → Option (List IndexEntryM)
  | 0, _, _ => some []
  | n + 1, l, iS =>
    (readU32 l).bind fun p1 =>
    if p1.1 = 0 ∨ p1.1 > maxIndexKeySize then none
    else
      (takeExact p1.1 p1.2).bind fun p2 =>
      (readU64 p2.2).bind fun p3 =>
      if p3.1 < headerSize ∨ p3.1 ≥ iS then none
      else
        (parseIndexEntries n p3.2 iS).bind fun es =>
        some (⟨p2.1, p3.1⟩ :: es)

/-- `sort.SliceIsSorted(entries, less)` with `less` the strict key order:
true iff no adjacent pair is strictly descending (equal adjacent keys
pass). -/
def indexKeysSorted : List IndexEntryM → Bool
  | [] => true
  | [_] => true
  | a :: b :: rest => !(ltKey b.key a.key) && indexKeysSorted (b :: rest)

/-- `loadIndex`: footer, then from `indexStartOffset` read `indexCount`
(rejecting 0 and anything over `maxIndexCount`), the entries, and the
ordering check. -/
def loadIndex (file : List Nat) : Option (List IndexEntryM × Nat) :=
  (loadFooter file).bind fun fo =>
  (readU32 (file.drop fo.1)).bind fun p1 =>
  if p1.1 = 0 ∨ p1.1 > maxIndexCount then none
  else
    (parseIndexEntries p1.1 p1.2 fo.1).bind fun es =>
    if indexKeysSorted es then some (es, fo.1) else none

/-- `sort.Search(len(entries), fun i => entries[i].key > target)` for an
index whose keys `loadIndex` has validated: the first position whose key
exceeds the target, or the length. -/
def firstIdxGT : List IndexEntryM → List Nat → Nat
  | [], _ => 0
  | e :: rest, t => if ltKey t e.key then 0 else firstIdxGT rest t + 1

/-- `pickScanRange`: scan from the last index entry with key ≤ target
(entry 0 when the target precedes every index key) to the next entry's
offset when it is usable, else to `indexStartOffset`. -/
def pickScanRange (entries : List IndexEntryM) (indexOffset : Nat) (target : List Nat) :
    Nat × Nat :=
  let i := firstIdxGT entries target - 1
  let start := (entries.getD i ⟨[], 0⟩).offset
  let e :=
    if i + 1 < entries.length then
      let next := (entries.getD (i + 1) ⟨[], 0⟩).offset
      if start < next ∧ next < indexOffset then next else indexOffset
    else indexOffset
  (start, e)

/-- the prefix of `sstable.Get` (the bloom-filter variant) up to the
choice of the scan range: header magic (a failed read of it propagates
the plain I/O error) and count, footer, bloom deserialization and the
negative short-circuit, index load and the consistency check of its
offset against the footer, then the scan-range selection; `Except.ok` is
the selected range. -/
def sstRange (file key : List Nat) : Except SstOut (Nat × Nat) :=
  (orOut (readU32At file 0) .ioErr).bind fun m =>
  if m ≠ sstMagic then .error .corrupt
  else
    (orOut (readU32At file 4) .corrupt).bind fun _count =>
    (orOut (loadFooter file) .corrupt).bind fun fo =>
    (orOut (unmarshalBloom (listSlice file fo.2 (file.length - footerSize))) .corrupt).bind
      fun bf =>
    if bf.m = 0 ∨ bf.k = 0 then .error .corrupt
    else if mayContain bf key = false then .error .notFound
    else
      (orOut (loadIndex file) .corrupt).bind fun li =>
      if li.2 ≠ fo.1 then .error .corrupt
      else
        let r := pickScanRange li.1 fo.1 key
        if r.2 ≤ r.1 then .error .corrupt
        else .ok r

/-- `sstable.Get`: the pipeline above, then the sequential scan of the
selected range. -/
def sstGet (file key : List Nat) : SstOut :=
  match sstRange file key with
  | .error r => r
  | .ok r => scanGet (listSlice file r.1 r.2) key

/-! ## Skip list and memtable (internal/memtable)

Nodes live in an allocation list; a node is referred to by its position
in that list, position 0 being the head sentinel.  `forward` holds
`Option` node ids, `none` being Go's nil pointer.  The walk loops are
given fuel `s.nodes.length`, which the list invariants show is enough. -/

def maxLevel : Nat := 16

/-- `memtable.node`. -/
structure SLNode where
  key : List Nat
  entry : EntryM
  forward : List (Option Nat)
deriving DecidableEq, Repr

/-- `memtable.SkipList`: the allocation list and the current level. -/
structure SkipListM where
  nodes : List SLNode
  level : Nat
deriving DecidableEq, Repr

def defaultEntry : EntryM := ⟨[], [], false⟩

/-- the head sentinel: no real key, `maxLevel` nil forward pointers. -/
def headNode : SLNode := ⟨[], defaultEntry, List.replicate maxLevel none⟩

/-- `NewSkipList()`. -/
def emptySL : SkipListM := ⟨[headNode], 1⟩

def nodeAt (s : SkipListM) (x : Nat) : SLNode := s.nodes.getD x ⟨[], defaultEntry, []⟩

/-- `x.forward[i]` of node id `x`. -/
def fwd (s : SkipListM) (x i : Nat) : Option Nat := (nodeAt s x).forward.getD i none

/-- the inner loop of Search/Upsert at one level:
`for x.forward[i] != nil && x.forward[i].key < key { x = x.forward[i] }`. -/
def walkLevel (s : SkipListM) (key : List Nat) (i x : Nat) : Nat → Nat
  | 0 => x
  | fuel + 1 =>
    match fwd s x i with
    | none => x
    | some y => if ltKey (nodeAt s y).key key then walkLevel s key i y fuel else x

/-- the descent of `Upsert` from level `n-1` down to level 0, recording
the predecessor at each level: element `j` of the result is `update[j]`. -/
def descend (s : SkipListM) (key : List Nat) (x : Nat) : Nat → List Nat
  | 0 => []
  | i + 1 =>
    let x' := walkLevel s key i x s.nodes.length
    descend s key x' i ++ [x']

/-- the descent of `Search`, keeping only the final position. -/
def descendX (s : SkipListM) (key : List Nat) (x : Nat) : Nat → Nat
  | 0 => x
  | i + 1 => descendX s key (walkLevel s key i x s.nodes.length) i

/-- `update[i]`, defaulting to the head for the levels
`s.level ≤ i < lvl` that Go fills with `s.head`. -/
def updAt (u : List Nat) (i : Nat) : Nat := u.getD i 0

def setNode (s : SkipListM) (x : Nat) (nd : SLNode) : SkipListM :=
  { s with nodes := s.nodes.set x nd }

/-- overwrite a node's Entry in place (the exact-match branch of
`Upsert`). -/
def setEntry (s : SkipListM) (x : Nat) (e : EntryM) : SkipListM :=
  setNode s x { nodeAt s x with entry := e }

/-- `x.forward[i] = v` on node id `x`. -/
def setFwd (s : SkipListM) (x i : Nat) (v : Option Nat) : SkipListM :=
  setNode s x { nodeAt s x with forward := (nodeAt s x).forward.set i v }

/-- the splice loop `for i := 0; i < lvl; i++ { update[i].forward[i] =
newNode }`. -/
def linkPreds (s : SkipListM) (u : List Nat) (newId : Nat) : Nat → SkipListM
  | 0 => s
  | i + 1 => setFwd (linkPreds s u newId i) (updAt u i) i (some newId)

/-- the insertion branch of `Upsert`: allocate the node at a fresh id
with `forward[i] = update[i].forward[i]` for `i < lvl` (read before any
pointer is redirected, as in the source, where each loop iteration reads
slot `(update[i], i)` before writing it and no two iterations touch the
same slot), raise the level to `lvl` if needed, then redirect the
predecessors. -/
def insertNew (s : SkipListM) (key : List Nat) (e : EntryM) (lvl : Nat) (u : List Nat) :
    SkipListM :=
  let newId := s.nodes.length
  let newFwd := (List.range lvl).map (fun i => fwd s (updAt u i) i)
  let s1 : SkipListM :=
    ⟨s.nodes ++ [⟨key, e, newFwd⟩], if s.level < lvl then lvl else s.level⟩
  linkPreds s1 u newId lvl

/-- `SkipList.Upsert` with the freshly generated level as a parameter:
descend recording predecessors; overwrite in place on an exact level-0
match; otherwise insert a new node. -/
def upsert (s : SkipListM) (key : List Nat) (e : EntryM) (lvl : Nat) : SkipListM :=
  let u := descend s key 0 s.level
  match fwd s (updAt u 0) 0 with
  | some y => if (nodeAt s y).key = key then setEntry s y e else insertNew s key e lvl u
  | none => insertNew s key e lvl u

/-- `randomLevel` over a finite stream of `rnd.Intn(2)` draws: start at
1, go up while below `maxLevel` and the draw is 0. -/
def randomLevelAux : List Nat → Nat → Nat
  | [], lvl => lvl
  | c :: rest, lvl =>
    if lvl < maxLevel ∧ c % 2 = 0 then randomLevelAux rest (lvl + 1) else lvl

def randomLevel (coins : List Nat) : Nat := randomLevelAux coins 1

/-- `SkipList.Search`: descend, step to `x.forward[0]`, compare keys. -/
def slSearch (s : SkipListM) (key : List Nat) : Option EntryM :=
  match fwd s (descendX s key 0 s.level) 0 with
  | some y => if (nodeAt s y).key = key then some (nodeAt s y).entry else none
  | none => none

/-- `MemTable.Put`: upsert `(key, value, tombstone=false)` (byte buffers
are pure values here, so the defensive copy is the identity). -/
def memPut (m : SkipListM) (key value : List Nat) (lvl : Nat) : SkipListM :=
  upsert m key ⟨key, value, false⟩ lvl

/-- `MemTable.Delete`: upsert a tombstone with empty value. -/
def memDelete (m : SkipListM) (key : List Nat) (lvl : Nat) : SkipListM :=
  upsert m key ⟨key, [], true⟩ lvl

/-- `MemTable.Get`: not-present on a miss or a tombstone. -/
def memGet (m : SkipListM) (key : List Nat) : Option (List Nat) :=
  match slSearch m key with
  | some e => if e.tombstone then none else some e.value
  | none => none

/-! ## Claim theorems -/

instance (op : WOp) : Decidable (wopSmall op) := by
  unfold wopSmall; cases op <;> infer_instance

/-- an SSTable file whose index holds two adjacent entries with the SAME
key `"a"`: 8-byte header, a 2-byte data region at offsets 8 and 9, the
index at offset 10, a valid bloom filter with every bit set at offset
40, and the footer. -/
def dupIndexFile : List Nat :=
  u32le sstMagic ++ u32le 1 ++ [0, 0] ++
  u32le 2 ++ (u32le 1 ++ [97] ++ u64le 8) ++ (u32le 1 ++ [97] ++ u64le 9) ++
  (u32le 8 ++ [1, 0, 0, 0] ++ u32le 1 ++ [255]) ++
  u64le 10 ++ u64le 40

/-- a well-formed variant of `dupIndexFile` with strictly ascending
index keys `"a"`, `"b"`. -/
def goodIndexFile : List Nat :=
  u32le sstMagic ++ u32le 1 ++ [0, 0] ++
  u32le 2 ++ (u32le 1 ++ [97] ++ u64le 8) ++ (u32le 1 ++ [98] ++ u64le 9) ++
  (u32le 8 ++ [1, 0, 0, 0] ++ u32le 1 ++ [255]) ++
  u64le 10 ++ u64le 40

/-! ## Region independence of the bloom-negative path (C6) -/

/-- overwrite the byte region `[a, b)` of a file with `junk` (whose
length matches the region). -/
def mutateRegion (file junk : List Nat) (a b : Nat) : List Nat :=
  (file.take a ++ junk) ++ file.drop b

/-- a variant of `goodIndexFile` whose bloom bitset is all zeroes, so
the filter excludes every key. -/
def bloomNegFile : List Nat :=
  u32le sstMagic ++ u32le 1 ++ [0, 0] ++
  u32le 2 ++ (u32le 1 ++ [97] ++ u64le 8) ++ (u32le 1 ++ [98] ++ u64le 9) ++
  (u32le 8 ++ [1, 0, 0, 0] ++ u32le 1 ++ [0]) ++
  u64le 10 ++ u64le 40

/-! ## Skip-list invariants (C8)

The pointer structure is abstracted by chains: `IsChain s i x l` says
that following `forward[i]` from node `x` visits exactly the node ids
`l` and then reaches nil; `Seg s i x l y` says the same for a finite
segment ending at node `y`. -/

inductive IsChain (s : SkipListM) (i : Nat) : Nat → List Nat → Prop
  | nil {x : Nat} : fwd s x i = none → IsChain s i x []
  | cons {x y : Nat} {l : List Nat} :
      fwd s x i = some y → IsChain s i y l → IsChain s i x (y :: l)

inductive Seg (s : SkipListM) (i : Nat) : Nat → List Nat → Nat → Prop
  | nil {x : Nat} : Seg s i x [] x
  | cons {x y z : Nat} {l : List Nat} :
      fwd s x i = some y → Seg s i y l z → Seg s i x (y :: l) z

/-- the key of node `x` is below `k`. -/
def keyLt (s : SkipListM) (k : List Nat) (x : Nat) : Bool :=
  ltKey (nodeAt s x).key k

/-- the node-id sequence at level `i`: the level-0 sequence filtered to
the nodes whose height exceeds `i`. -/
def levelList (s : SkipListM) (l0 : List Nat) (i : Nat) : List Nat :=
  l0.filter (fun x => decide (i < (nodeAt s x).forward.length))

/-- the part of level `i` strictly below the search key. -/
def chainA (s : SkipListM) (l0 k : List Nat) (i : Nat) : List Nat :=
  (levelList s l0 i).takeWhile (keyLt s k)

/-- the rest of level `i` (first key ≥ the search key onward). -/
def chainB (s : SkipListM) (l0 k : List Nat) (i : Nat) : List Nat :=
  (levelList s l0 i).dropWhile (keyLt s k)

/-- the rightmost node of level `i` with key below the search key (the
head when there is none): the predecessor `update[i]` computed by the
descent. -/
def chainU (s : SkipListM) (l0 k : List Nat) (i : Nat) : Nat :=
  (chainA s l0 k i).getLastD 0

/-- the structural invariant of the skip list, parameterized by the
level-0 node-id sequence `l0`. -/
structure SLInv (s : SkipListM) (l0 : List Nat) : Prop where
  headLen : (nodeAt s 0).forward.length = maxLevel
  levelLB : 1 ≤ s.level
  levelUB : s.level ≤ maxLevel
  mem : ∀ x ∈ l0, 0 < x ∧ x < s.nodes.length
  hts : ∀ x ∈ l0, 1 ≤ (nodeAt s x).forward.length ∧
    (nodeAt s x).forward.length ≤ s.level
  sorted : List.Pairwise (fun a b => ltKey (nodeAt s a).key (nodeAt s b).key = true) l0
  complete : ∀ x, 0 < x → x < s.nodes.length → x ∈ l0
  chains : ∀ i, i < maxLevel → IsChain s i 0 (levelList s l0 i)

/-- the intermediate state of `insertNew` after allocating the new node
and raising the level, before the predecessors are redirected. -/
def insState (s : SkipListM) (k : List Nat) (e : EntryM) (lvl : Nat)
    (u : List Nat) : SkipListM :=
  ⟨s.nodes ++ [⟨k, e, (List.range lvl).map (fun i => fwd s (updAt u i) i)⟩],
    if s.level < lvl then lvl else s.level⟩

/-- a concrete two-node skip list (head plus one node with key "a"),
used to instantiate the invariant theorems. -/
def demoSL : SkipListM :=
  ⟨[⟨[], defaultEntry, some 1 :: List.replicate 15 none⟩,
    ⟨[97], ⟨[97], [1], false⟩, [none]⟩], 1⟩

/-! ## Theorems -/

theorem ltKey_irrefl (a : List Nat) : ltKey a a = false := by
  induction a with
  | nil => rfl
  | cons x xs ih => simp [ltKey, ih]

theorem ltKey_cons_iff (x y : Nat) (xs ys : List Nat) :
    ltKey (x :: xs) (y :: ys) = true ↔ x < y ∨ (x = y ∧ ltKey xs ys = true) := by
  simp only [ltKey]
  split_ifs with h1 h2
  · simp [h1]
  · constructor
    · intro hh; exact absurd hh (by simp)
    · rintro (hh | ⟨hh, _⟩) <;> omega
  · have hxy : x = y := by omega
    subst hxy
    simp

theorem ltKey_cons_false_iff (x y : Nat) (xs ys : List Nat) :
    ltKey (x :: xs) (y :: ys) = false ↔ y < x ∨ (x = y ∧ ltKey xs ys = false) := by
  simp only [ltKey]
  split_ifs with h1 h2
  · constructor
    · intro hh; exact absurd hh (by simp)
    · rintro (hh | ⟨hh, _⟩) <;> omega
  · simp [h2]
  · have hxy : x = y := by omega
    subst hxy
    simp

theorem ltKey_trans {a b c : List Nat} (h1 : ltKey a b = true)
    (h2 : ltKey b c = true) : ltKey a c = true := by
  induction a generalizing b c with
  | nil =>
    cases b with
    | nil => simp [ltKey] at h1
    | cons y ys =>
      cases c with
      | nil => simp [ltKey] at h2
      | cons z zs => rfl
  | cons x xs ih =>
    cases b with
    | nil => simp [ltKey] at h1
    | cons y ys =>
      cases c with
      | nil => simp [ltKey] at h2
      | cons z zs =>
        rw [ltKey_cons_iff] at h1 h2 ⊢
        rcases h1 with h1 | ⟨hxy, h1⟩
        · rcases h2 with h2 | ⟨hyz, _⟩
          · exact Or.inl (by omega)
          · exact Or.inl (by omega)
        · rcases h2 with h2 | ⟨hyz, h2⟩
          · exact Or.inl (by omega)
          · exact Or.inr ⟨by omega, ih h1 h2⟩

theorem ltKey_conn {a b : List Nat} (h1 : ltKey a b = false)
    (h2 : ltKey b a = false) : a = b := by
  induction a generalizing b with
  | nil =>
    cases b with
    | nil => rfl
    | cons y ys => simp [ltKey] at h1
  | cons x xs ih =>
    cases b with
    | nil => simp [ltKey] at h2
    | cons y ys =>
      rw [ltKey_cons_false_iff] at h1 h2
      rcases h1 with h1 | ⟨hxy, h1⟩
      · rcases h2 with h2 | ⟨hyx, _⟩
        · omega
        · omega
      · rcases h2 with h2 | ⟨hyx, h2⟩
        · omega
        · exact congrArg₂ (· :: ·) (by omega) (ih h1 h2)

theorem ltKey_asymm {a b : List Nat} (h : ltKey a b = true) :
    ltKey b a = false := by
  by_contra hb
  have hb' : ltKey b a = true := by
    cases hba : ltKey b a
    · exact absurd hba hb
    · rfl
  have := ltKey_trans h hb'
  rw [ltKey_irrefl] at this
  exact absurd this (by simp)

theorem readU32_u32le (n : Nat) (rest : List Nat) :
    readU32 (u32le n ++ rest) = some (w32 n, rest) := by
  simp only [u32le, List.cons_append, List.nil_append, readU32, w32]
  congr 1
  congr 1
  omega

theorem readU64_u64le (n : Nat) (rest : List Nat) :
    readU64 (u64le n ++ rest) = some (w64 n, rest) := by
  simp only [u64le, List.cons_append, List.nil_append, readU64, w64]
  congr 1
  congr 1
  omega

theorem takeExact_append (l rest : List Nat) :
    takeExact l.length (l ++ rest) = some (l, rest) := by
  simp [takeExact, List.take_left, List.drop_left]

theorem takeExact_length {n : Nat} {l a b : List Nat}
    (h : takeExact n l = some (a, b)) : a.length = n ∧ b.length + n = l.length := by
  unfold takeExact at h
  split at h
  · injection h with h'
    injection h' with h1 h2
    subst h1; subst h2
    constructor
    · simp; omega
    · simp; omega
  · exact absurd h (by simp)

theorem readU32_length {l rest : List Nat} {v : Nat}
    (h : readU32 l = some (v, rest)) : rest.length + 4 = l.length := by
  unfold readU32 at h
  split at h
  · injection h with h'
    injection h' with h1 h2
    subst h2
    simp
  · exact absurd h (by simp)

theorem readU64_length {l rest : List Nat} {v : Nat}
    (h : readU64 l = some (v, rest)) : rest.length + 8 = l.length := by
  unfold readU64 at h
  split at h
  · injection h with h'
    injection h' with h1 h2
    subst h2
    simp
  · exact absurd h (by simp)

theorem readRecord_shrinks {l rest : List Nat} {r : WRecord}
    (h : readRecord l = some (r, rest)) : rest.length < l.length := by
  unfold readRecord at h
  match l with
  | [] => exact absurd h (by simp)
  | op :: r0 =>
    simp only at h
    cases h0 : readU32 r0 with
    | none => simp [h0] at h
    | some p0 =>
      rw [h0, Option.some_bind] at h
      cases h1 : readU32 p0.2 with
      | none => simp [h1] at h
      | some p1 =>
        rw [h1, Option.some_bind] at h
        cases h2 : takeExact p0.1 p1.2 with
        | none => simp [h2] at h
        | some p2 =>
          rw [h2, Option.some_bind] at h
          cases h3 : takeExact p1.1 p2.2 with
          | none => simp [h3] at h
          | some p3 =>
            rw [h3, Option.some_bind] at h
            have l0 := readU32_length h0
            have l1 := readU32_length h1
            have l2 := takeExact_length h2
            have l3 := takeExact_length h3
            split at h
            · injection h with h'
              injection h' with _ hrest
              subst hrest
              simp only [List.length_cons]
              omega
            · exact absurd h (by simp)

theorem readRecord_wopBytes (op : WOp) (rest : List Nat) (h : wopSmall op) :
    readRecord (wopBytes op ++ rest) = some (wopRecord op, rest) := by
  cases op with
  | put k v =>
    obtain ⟨hk, hv⟩ := h
    simp only [wopBytes, appendPutBytes, List.cons_append, List.append_assoc, readRecord]
    rw [readU32_u32le, Option.some_bind]
    rw [readU32_u32le, Option.some_bind]
    simp only [w32, Nat.mod_eq_of_lt hk, Nat.mod_eq_of_lt hv]
    rw [takeExact_append k (v ++ rest), Option.some_bind]
    rw [takeExact_append v rest, Option.some_bind]
    simp [wopRecord]
  | del k =>
    simp only [wopBytes, appendDeleteBytes, List.cons_append, List.append_assoc, readRecord]
    rw [readU32_u32le, Option.some_bind]
    rw [readU32_u32le, Option.some_bind]
    simp only [w32, Nat.mod_eq_of_lt h, Nat.zero_mod]
    rw [takeExact_append k rest, Option.some_bind]
    simp only [takeExact, Nat.zero_le, if_true, List.take_zero, List.drop_zero,
      Option.some_bind]
    simp [wopRecord]

theorem replay_nil : replay [] = some [] := by
  unfold replay; rfl

theorem replay_cons {l rest : List Nat} {r : WRecord} (hne : l ≠ [])
    (h : readRecord l = some (r, rest)) :
    replay l = match replay rest with
               | none => none
               | some rs => some (r :: rs) := by
  match l, hne with
  | op :: r0, _ =>
    rw [replay]
    split
    · next heq => rw [heq] at h; exact absurd h (by simp)
    · next r' rest' heq =>
      rw [heq] at h
      injection h with h'
      injection h' with h1 h2
      subst h1; subst h2
      rfl

/-- C2: WAL round-trip fidelity.  For every finite sequence of
AppendPut/AppendDelete operations (whose key and value lengths fit the
uint32 length fields), Replay of the file the appends produced returns
exactly as many records, in the same order: a put becomes a record with
op byte 0 and the same key and value bytes, a delete a record with op
byte 1, the same key, and an empty value. -/
theorem wal_replay_fidelity (ops : List WOp) (h : ∀ op ∈ ops, wopSmall op) :
    replay (walFileBytes ops) = some (ops.map wopRecord) := by
  induction ops with
  | nil => simp [walFileBytes, replay_nil]
  | cons op rest ih =>
    have hop : wopSmall op := h op (by simp)
    have hrest : ∀ o ∈ rest, wopSmall o := fun o ho => h o (by simp [ho])
    have hbytes : walFileBytes (op :: rest) = wopBytes op ++ walFileBytes rest := by
      simp [walFileBytes]
    rw [hbytes]
    have hr := readRecord_wopBytes op (walFileBytes rest) hop
    have hne : wopBytes op ++ walFileBytes rest ≠ [] := by
      cases op <;> simp [wopBytes, appendPutBytes, appendDeleteBytes]
    rw [replay_cons hne hr, ih hrest]
    simp

theorem readByte_length {l : List Nat} {tr : Nat × List Nat}
    (h : readByte l = some tr) : tr.2.length + 1 = l.length := by
  cases l with
  | nil => exact absurd h (by simp [readByte])
  | cons a as =>
    simp only [readByte] at h
    injection h with h'
    subst h'
    simp

theorem scanStep_shrinks {bytes target r5 : List Nat}
    (h : scanStep bytes target = .ok r5) : r5.length + 9 ≤ bytes.length := by
  unfold scanStep at h
  cases h0 : readU32 bytes with
  | none => simp [h0, orOut, Except.bind] at h
  | some p0 =>
    rw [h0] at h
    simp only [orOut, Except.bind] at h
    cases h1 : readU32 p0.2 with
    | none => simp [h1, orOut, Except.bind] at h
    | some p1 =>
      rw [h1] at h
      simp only [orOut, Except.bind] at h
      cases h2 : readByte p1.2 with
      | none => simp [h2, orOut, Except.bind] at h
      | some tr =>
        rw [h2] at h
        simp only [orOut, Except.bind] at h
        cases h3 : takeExact p0.1 tr.2 with
        | none => simp [h3, orOut, Except.bind] at h
        | some p3 =>
          rw [h3] at h
          simp only [orOut, Except.bind] at h
          cases h4 : takeExact p1.1 p3.2 with
          | none => simp [h4, orOut, Except.bind] at h
          | some p4 =>
            rw [h4] at h
            simp only [orOut, Except.bind] at h
            have l0 := readU32_length h0
            have l1 := readU32_length h1
            have l2 := readByte_length h2
            have l3 := takeExact_length h3
            have l4 := takeExact_length h4
            split at h
            · exact absurd h (by simp)
            · split at h
              · exact absurd h (by simp)
              · injection h with h'
                subst h'
                omega

theorem scanGetFuel_succ (fuel : Nat) (bytes target : List Nat) :
    scanGetFuel (fuel + 1) bytes target =
      match scanStep bytes target with
      | .error r => r
      | .ok r5 => scanGetFuel fuel r5 target := rfl

theorem scanGetFuel_eq_scanGet :
    ∀ (fuel : Nat) (bytes target : List Nat), bytes.length < fuel →
      scanGetFuel fuel bytes target = scanGet bytes target := by
  intro fuel
  induction fuel using Nat.strong_induction_on with
  | _ fuel ih =>
    intro bytes target h
    match fuel, h with
    | f + 1, h =>
      unfold scanGet
      rw [scanGetFuel_succ f, scanGetFuel_succ bytes.length]
      cases hs : scanStep bytes target with
      | error r => rfl
      | ok r5 =>
        have hlen := scanStep_shrinks hs
        show scanGetFuel f r5 target = scanGetFuel bytes.length r5 target
        rw [ih f (by omega) r5 target (by omega),
            ih bytes.length (by omega) r5 target (by omega)]

/-! ## Scan-loop lemmas -/

theorem readU32_eq_none {l : List Nat} (h : l.length < 4) : readU32 l = none := by
  match l with
  | [] => rfl
  | [_] => rfl
  | [_, _] => rfl
  | [_, _, _] => rfl
  | _ :: _ :: _ :: _ :: _ => simp at h; omega

theorem scanGet_of_scanStep_error {bytes t : List Nat} {r : SstOut}
    (h : scanStep bytes t = .error r) : scanGet bytes t = r := by
  rw [scanGet, scanGetFuel_succ, h]

theorem scanStep_noKeyLen {bytes t : List Nat} (h : readU32 bytes = none) :
    scanStep bytes t = .error .notFound := by
  unfold scanStep
  rw [h]
  rfl

theorem scanStep_noValLen {bytes t r1 : List Nat} {keyLen : Nat}
    (h0 : readU32 bytes = some (keyLen, r1)) (h1 : readU32 r1 = none) :
    scanStep bytes t = .error .corrupt := by
  unfold scanStep
  rw [h0]
  simp only [orOut, Except.bind]
  rw [h1]

theorem scanStep_noTomb {bytes t r1 : List Nat} {keyLen valLen : Nat}
    (h0 : readU32 bytes = some (keyLen, r1)) (h1 : readU32 r1 = some (valLen, [])) :
    scanStep bytes t = .error .corrupt := by
  unfold scanStep
  rw [h0]
  simp only [orOut, Except.bind]
  rw [h1]
  rfl

theorem scanStep_shortKey {bytes t r1 r3 : List Nat} {keyLen valLen tomb : Nat}
    (h0 : readU32 bytes = some (keyLen, r1)) (h1 : readU32 r1 = some (valLen, tomb :: r3))
    (h3 : takeExact keyLen r3 = none) :
    scanStep bytes t = .error .corrupt := by
  unfold scanStep
  rw [h0]
  simp only [orOut, Except.bind]
  rw [h1]
  simp only [readByte, Except.bind]
  rw [h3]

theorem scanStep_shortVal {bytes t r1 r3 r4 kb : List Nat} {keyLen valLen tomb : Nat}
    (h0 : readU32 bytes = some (keyLen, r1)) (h1 : readU32 r1 = some (valLen, tomb :: r3))
    (h3 : takeExact keyLen r3 = some (kb, r4)) (h4 : takeExact valLen r4 = none) :
    scanStep bytes t = .error .corrupt := by
  unfold scanStep
  rw [h0]
  simp only [orOut, Except.bind]
  rw [h1]
  simp only [readByte, Except.bind]
  rw [h3]
  simp only [Except.bind]
  rw [h4]

/-- computing the scan step on a well-formed record at the head of the
range. -/
theorem scanStep_enc (k v rest target : List Nat) (tomb : Nat)
    (hk : k.length < 4294967296) (hv : v.length < 4294967296) :
    scanStep (u32le k.length ++ u32le v.length ++ tomb :: (k ++ (v ++ rest))) target =
      if k = target then Except.error (if tomb = 1 then SstOut.deleted else SstOut.found v)
      else if ltKey target k then Except.error SstOut.notFound
      else Except.ok rest := by
  unfold scanStep
  rw [List.append_assoc, readU32_u32le]
  simp only [orOut, Except.bind]
  rw [readU32_u32le]
  simp only [readByte, Except.bind, w32, Nat.mod_eq_of_lt hk, Nat.mod_eq_of_lt hv]
  rw [takeExact_append k (v ++ rest)]
  simp only [Except.bind]
  rw [takeExact_append v rest]

theorem wal_replay_fidelity_witness :
    (∀ op ∈ [WOp.put [97] [49], WOp.put [98] [104, 101], WOp.del [97]], wopSmall op) ∧
    replay (walFileBytes [WOp.put [97] [49], WOp.put [98] [104, 101], WOp.del [97]]) =
      some [⟨0, [97], [49]⟩, ⟨0, [98], [104, 101]⟩, ⟨1, [97], []⟩] :=
  ⟨by decide,
   by rw [wal_replay_fidelity _ (by decide)]; rfl⟩

/-- C1: the engine read path.  A memtable hit decides the lookup without
consulting any SSTable (the result is the same for every stack): a
tombstone hit is not-present, any other hit returns the stored value.
On a miss the stack is walked newest-first: an SSTable error yields
not-present, `Found` yields that table's value, `Deleted` yields
not-present and stops the walk, `NotFound` defers to the rest of the
stack, and an exhausted stack is not-present. -/
theorem dbGet_read_path (e : EntryM) (t : SstAnswer) (rest tabs : List SstAnswer) :
    (e.tombstone = true → dbGet (some e) tabs = none) ∧
    (e.tombstone = false → dbGet (some e) tabs = some e.value) ∧
    dbGet none [] = none ∧
    (t.err = true → dbGet none (t :: rest) = none) ∧
    (t.err = false → t.res = GetResult.Found → dbGet none (t :: rest) = some t.value) ∧
    (t.err = false → t.res = GetResult.Deleted → dbGet none (t :: rest) = none) ∧
    (t.err = false → t.res = GetResult.NotFound → dbGet none (t :: rest) = dbGet none rest) := by
  refine ⟨fun h => by simp [dbGet, h], fun h => by simp [dbGet, h], rfl,
          fun h => by simp [dbGet, sstWalk, h],
          fun h1 h2 => by simp [dbGet, sstWalk, h1, h2],
          fun h1 h2 => by simp [dbGet, sstWalk, h1, h2],
          fun h1 h2 => by simp [dbGet, sstWalk, h1, h2]⟩

theorem dbGet_read_path_witness :
    dbGet (some ⟨[107], [118], true⟩) [⟨[120], GetResult.Found, false⟩] = none ∧
    dbGet (some ⟨[107], [118], false⟩) [] = some [118] ∧
    dbGet none [⟨[119], GetResult.NotFound, false⟩, ⟨[120], GetResult.Deleted, false⟩] =
      none :=
  ⟨(dbGet_read_path ⟨[107], [118], true⟩ ⟨[], .NotFound, false⟩ []
      [⟨[120], GetResult.Found, false⟩]).1 rfl,
   (dbGet_read_path ⟨[107], [118], false⟩ ⟨[], .NotFound, false⟩ [] []).2.1 rfl,
   by
    rw [(dbGet_read_path ⟨[], [], false⟩ ⟨[119], .NotFound, false⟩
          [⟨[120], GetResult.Deleted, false⟩] []).2.2.2.2.2.2 rfl rfl]
    exact (dbGet_read_path ⟨[], [], false⟩ ⟨[120], .Deleted, false⟩ [] []).2.2.2.2.2.1 rfl rfl⟩

/-- C7: when writing the temporary SSTable or renaming it fails, Flush
removes the temp file, returns the error, and leaves the whole engine
state (SSTable stack, memtable contents, next id, WAL bytes) exactly as
it was. -/
theorem flush_failure_atomic (s : DBState) (env : FlushEnv) (hmem : s.mem ≠ [])
    (hfail : env.writeOk = false ∨ (env.writeOk = true ∧ env.renameOk = false)) :
    (dbFlush s env).state = s ∧ (dbFlush s env).err.isSome = true ∧
    (dbFlush s env).tmpRemoved = true := by
  rcases hfail with hw | ⟨hw, hr⟩
  · simp [dbFlush, hmem, hw]
  · simp [dbFlush, hmem, hw, hr]

theorem flush_failure_atomic_witness :
    (dbFlush ⟨[⟨[97], [49], false⟩], [3], 7, [1, 2, 3]⟩ ⟨true, false, true, true, true⟩).state =
        ⟨[⟨[97], [49], false⟩], [3], 7, [1, 2, 3]⟩ ∧
    (dbFlush ⟨[⟨[97], [49], false⟩], [3], 7, [1, 2, 3]⟩
        ⟨true, false, true, true, true⟩).err.isSome = true ∧
    (dbFlush ⟨[⟨[97], [49], false⟩], [3], 7, [1, 2, 3]⟩
        ⟨true, false, true, true, true⟩).tmpRemoved = true :=
  flush_failure_atomic ⟨[⟨[97], [49], false⟩], [3], 7, [1, 2, 3]⟩
    ⟨true, false, true, true, true⟩ (by decide) (Or.inr ⟨rfl, rfl⟩)

/-- C9: after the rename has published the new SSTable, a failure while
closing, zeroing or reopening the WAL still returns an error, but the
new table is already at the head of the stack, the id is bumped, and the
memtable has been replaced by a fresh empty one; when the close or the
zeroing failed the WAL still holds the pre-flush bytes. -/
theorem flush_wal_truncation_partial (s : DBState) (env : FlushEnv)
    (hmem : s.mem ≠ []) (hw : env.writeOk = true) (hr : env.renameOk = true)
    (hfail : env.closeOk = false ∨ env.truncOk = false ∨ env.reopenOk = false) :
    (dbFlush s env).err.isSome = true ∧
    (dbFlush s env).state.sstables = s.nextID :: s.sstables ∧
    (dbFlush s env).state.mem = [] ∧
    (dbFlush s env).state.nextID = s.nextID + 1 ∧
    (env.closeOk = false ∨ env.truncOk = false →
      (dbFlush s env).state.walBytes = s.walBytes) := by
  cases env with
  | mk w r c tr ro =>
    simp only at hw hr hfail
    subst hw; subst hr
    cases c <;> cases tr <;> cases ro <;> simp_all [dbFlush, hmem]

theorem flush_wal_truncation_partial_witness :
    (dbFlush ⟨[⟨[97], [49], false⟩], [3], 7, [1, 2, 3]⟩
        ⟨true, true, false, true, true⟩).err.isSome = true ∧
    (dbFlush ⟨[⟨[97], [49], false⟩], [3], 7, [1, 2, 3]⟩
        ⟨true, true, false, true, true⟩).state.sstables = 7 :: [3] ∧
    (dbFlush ⟨[⟨[97], [49], false⟩], [3], 7, [1, 2, 3]⟩
        ⟨true, true, false, true, true⟩).state.mem = [] ∧
    (dbFlush ⟨[⟨[97], [49], false⟩], [3], 7, [1, 2, 3]⟩
        ⟨true, true, false, true, true⟩).state.nextID = 7 + 1 ∧
    (false = false ∨ true = false →
      (dbFlush ⟨[⟨[97], [49], false⟩], [3], 7, [1, 2, 3]⟩
        ⟨true, true, false, true, true⟩).state.walBytes = [1, 2, 3]) :=
  flush_wal_truncation_partial ⟨[⟨[97], [49], false⟩], [3], 7, [1, 2, 3]⟩
    ⟨true, true, false, true, true⟩ (by decide) rfl rfl (Or.inl rfl)

/-- C3 counterexample: a scan range holding a single stray byte is a
short read inside the range (it is not a record boundary), yet the scan
maps the failed `keyLen` read to a clean end and returns `NotFound` with
no error instead of `ErrCorruptSST`. -/
theorem scan_short_keylen_counterexample :
    scanGet [238] [97] = SstOut.notFound ∧ SstOut.notFound ≠ SstOut.corrupt :=
  ⟨rfl, by decide⟩

/-- C3 amended: the scan returns `Deleted`/`Found` on a record whose key
equals the target, `NotFound` on a greater key, `NotFound` on a clean
end of range AND on a short read of the `keyLen` field itself (fewer
than 4 bytes left), and `ErrCorruptSST` for every parse failure or
short read after the `keyLen` field: a failed `valLen` read, a missing
tombstone byte, a short key read, or a short value read. -/
theorem scanGet_scan_semantics
    (t k v rest bytes r1 r3 r4 kb : List Nat) (tomb keyLen valLen : Nat) :
    (bytes.length < 4 → scanGet bytes t = SstOut.notFound) ∧
    (k.length < 4294967296 → v.length < 4294967296 →
      scanGet (u32le k.length ++ u32le v.length ++ tomb :: (k ++ (v ++ rest))) k =
        if tomb = 1 then SstOut.deleted else SstOut.found v) ∧
    (k.length < 4294967296 → v.length < 4294967296 → ltKey t k = true →
      scanGet (u32le k.length ++ u32le v.length ++ tomb :: (k ++ (v ++ rest))) t =
        SstOut.notFound) ∧
    (readU32 bytes = some (keyLen, r1) → readU32 r1 = none →
      scanGet bytes t = SstOut.corrupt) ∧
    (readU32 bytes = some (keyLen, r1) → readU32 r1 = some (valLen, []) →
      scanGet bytes t = SstOut.corrupt) ∧
    (readU32 bytes = some (keyLen, r1) → readU32 r1 = some (valLen, tomb :: r3) →
      takeExact keyLen r3 = none → scanGet bytes t = SstOut.corrupt) ∧
    (readU32 bytes = some (keyLen, r1) → readU32 r1 = some (valLen, tomb :: r3) →
      takeExact keyLen r3 = some (kb, r4) → takeExact valLen r4 = none →
      scanGet bytes t = SstOut.corrupt) := by
  refine ⟨?_, ?_, ?_, ?_, ?_, ?_, ?_⟩
  · intro h
    exact scanGet_of_scanStep_error (scanStep_noKeyLen (readU32_eq_none h))
  · intro hk hv
    have hs := scanStep_enc k v rest k tomb hk hv
    rw [if_pos rfl] at hs
    exact scanGet_of_scanStep_error hs
  · intro hk hv hlt
    have hs := scanStep_enc k v rest t tomb hk hv
    have hne : k ≠ t := by
      intro he
      subst he
      rw [ltKey_irrefl] at hlt
      exact absurd hlt (by simp)
    rw [if_neg hne, if_pos hlt] at hs
    exact scanGet_of_scanStep_error hs
  · intro h0 h1
    exact scanGet_of_scanStep_error (scanStep_noValLen h0 h1)
  · intro h0 h1
    exact scanGet_of_scanStep_error (scanStep_noTomb h0 h1)
  · intro h0 h1 h3
    exact scanGet_of_scanStep_error (scanStep_shortKey h0 h1 h3)
  · intro h0 h1 h3 h4
    exact scanGet_of_scanStep_error (scanStep_shortVal h0 h1 h3 h4)

theorem scanGet_scan_semantics_witness :
    scanGet [7, 7] [97] = SstOut.notFound ∧
    scanGet (u32le 1 ++ u32le 1 ++ 0 :: ([97] ++ ([49] ++ []))) [97] =
      SstOut.found [49] ∧
    scanGet [1, 0, 0, 0, 1, 0] [97] = SstOut.corrupt :=
  ⟨(scanGet_scan_semantics [97] [] [] [] [7, 7] [] [] [] [] 0 0 0).1 (by decide),
   ((scanGet_scan_semantics [97] [97] [49] [] [] [] [] [] [] 0 0 0).2.1
      (by decide) (by decide)).trans rfl,
   (scanGet_scan_semantics [97] [] [] [] [1, 0, 0, 0, 1, 0] [1, 0] [] [] [] 0 1 0).2.2.2.1
      rfl rfl⟩

/-- C4 counterexample: `WriteTable` emits `valLen = len(value)` and the
value bytes for a tombstone entry with a non-empty value (here valLen is
2, not 0), and the scan returns `Deleted`, not `ErrCorruptSST`, on a
record carrying `tomb = 1` together with `valLen = 1 > 0`. -/
theorem tomb_vallen_counterexample :
    encRecord ⟨[97], [49, 50], true⟩ =
      u32le 1 ++ u32le 2 ++ [1] ++ [97] ++ [49, 50] ∧
    (buildData [⟨[97], [49, 50], true⟩] headerSize 0).1 = encRecord ⟨[97], [49, 50], true⟩ ∧
    u32le 2 ≠ u32le 0 ∧
    scanGet (u32le 1 ++ u32le 1 ++ 1 :: ([97] ++ ([50] ++ []))) [97] = SstOut.deleted ∧
    SstOut.deleted ≠ SstOut.corrupt := by
  refine ⟨rfl, ?_, by decide, rfl, by decide⟩
  simp [buildData, indexStride]

/-- C4 amended: `WriteTable` always emits `valLen` equal to the entry's
value length, tombstone or not, so a tombstone record carries
`valLen = 0` and no value bytes exactly when its value is empty (which
is all the memtable ever hands to a flush); and `Get` performs no
tomb/valLen consistency check: a record with `tomb = 1` and
`valLen > 0` decodes to `Deleted` without error. -/
theorem tomb_vallen_behavior (e : EntryM) (k v rest : List Nat) :
    (e.tombstone = true →
      encRecord e = u32le e.key.length ++ u32le e.value.length ++ [1] ++ e.key ++ e.value) ∧
    (e.tombstone = true → e.value = [] →
      encRecord e = u32le e.key.length ++ u32le 0 ++ [1] ++ e.key) ∧
    (k.length < 4294967296 → v.length < 4294967296 →
      scanGet (u32le k.length ++ u32le v.length ++ 1 :: (k ++ (v ++ rest))) k =
        SstOut.deleted) := by
  refine ⟨?_, ?_, ?_⟩
  · intro h
    simp [encRecord, h]
  · intro h hv
    simp [encRecord, h, hv]
  · intro hk hv
    have hs := scanStep_enc k v rest k 1 hk hv
    rw [if_pos rfl] at hs
    exact scanGet_of_scanStep_error hs

theorem tomb_vallen_behavior_witness :
    encRecord ⟨[98], [], true⟩ = u32le 1 ++ u32le 0 ++ [1] ++ [98] ∧
    scanGet (u32le 1 ++ u32le 2 ++ 1 :: ([98] ++ ([50, 51] ++ []))) [98] =
      SstOut.deleted :=
  ⟨(tomb_vallen_behavior ⟨[98], [], true⟩ [] [] []).2.1 rfl rfl,
   (tomb_vallen_behavior ⟨[], [], false⟩ [98] [50, 51] []).2.2 (by decide) (by decide)⟩

/-! ## Index validation (C5) -/

theorem parseIndexEntries_spec :
    ∀ (n : Nat) (l : List Nat) (iS : Nat) (es : List IndexEntryM),
      parseIndexEntries n l iS = some es →
      es.length = n ∧
      ∀ e ∈ es, 1 ≤ e.key.length ∧ e.key.length ≤ maxIndexKeySize ∧
        headerSize ≤ e.offset ∧ e.offset < iS := by
  intro n
  induction n with
  | zero =>
    intro l iS es h
    simp only [parseIndexEntries] at h
    injection h with h'
    subst h'
    exact ⟨rfl, by intro e he; simp at he⟩
  | succ m ih =>
    intro l iS es h
    simp only [parseIndexEntries] at h
    cases h0 : readU32 l with
    | none => rw [h0] at h; simp at h
    | some p1 =>
      rw [h0, Option.some_bind] at h
      split at h
      · exact absurd h (by simp)
      · rename_i hg1
        cases h2 : takeExact p1.1 p1.2 with
        | none => rw [h2] at h; simp at h
        | some p2 =>
          rw [h2, Option.some_bind] at h
          cases h3 : readU64 p2.2 with
          | none => rw [h3] at h; simp at h
          | some p3 =>
            rw [h3, Option.some_bind] at h
            split at h
            · exact absurd h (by simp)
            · rename_i hg2
              cases h4 : parseIndexEntries m p3.2 iS with
              | none => rw [h4] at h; simp at h
              | some es2 =>
                rw [h4, Option.some_bind] at h
                injection h with h'
                subst h'
                obtain ⟨hlen, hall⟩ := ih p3.2 iS es2 h4
                push_neg at hg1 hg2
                refine ⟨by simp [hlen], ?_⟩
                intro e he
                rcases List.mem_cons.mp he with rfl | he2
                · have ht := (takeExact_length h2).1
                  refine ⟨?_, ?_, ?_, ?_⟩
                  · show 1 ≤ p2.1.length
                    omega
                  · show p2.1.length ≤ maxIndexKeySize
                    omega
                  · show headerSize ≤ p3.1
                    omega
                  · show p3.1 < iS
                    omega
                · exact hall e he2

theorem indexKeysSorted_chain :
    ∀ (es : List IndexEntryM), indexKeysSorted es = true →
      es.Chain' (fun a b => ltKey b.key a.key = false)
  | [], _ => List.chain'_nil
  | [_], _ => List.chain'_singleton _
  | a :: b :: rest, h => by
    simp only [indexKeysSorted, Bool.and_eq_true, Bool.not_eq_true'] at h
    rw [List.chain'_cons]
    exact ⟨h.1, indexKeysSorted_chain (b :: rest) h.2⟩

/-- C5 amended: a successfully loaded index always satisfies the
validated bounds — a non-zero count at most 2^20, every key non-empty
and at most 2^20 bytes, every record offset inside
`[headerSize, indexStartOffset)` — and its keys are pairwise
NON-DESCENDING: the `sort.SliceIsSorted` check only rejects a strictly
descending adjacent pair, so two equal adjacent keys are accepted
rather than reported as corruption. -/
theorem loadIndex_spec (file : List Nat) (es : List IndexEntryM) (iS : Nat)
    (h : loadIndex file = some (es, iS)) :
    es ≠ [] ∧ es.length ≤ maxIndexCount ∧
    (∀ e ∈ es, 1 ≤ e.key.length ∧ e.key.length ≤ maxIndexKeySize) ∧
    (∀ e ∈ es, headerSize ≤ e.offset ∧ e.offset < iS) ∧
    es.Chain' (fun a b => ltKey b.key a.key = false) := by
  unfold loadIndex at h
  cases hf : loadFooter file with
  | none => rw [hf] at h; simp at h
  | some fo =>
    rw [hf, Option.some_bind] at h
    cases h0 : readU32 (file.drop fo.1) with
    | none => rw [h0] at h; simp at h
    | some p1 =>
      rw [h0, Option.some_bind] at h
      split at h
      · exact absurd h (by simp)
      · rename_i hg
        cases hp : parseIndexEntries p1.1 p1.2 fo.1 with
        | none => rw [hp] at h; simp at h
        | some es2 =>
          rw [hp, Option.some_bind] at h
          split at h
          · rename_i hsorted
            injection h with h'
            injection h' with he hi
            subst he
            subst hi
            obtain ⟨hlen, hall⟩ := parseIndexEntries_spec p1.1 p1.2 fo.1 es2 hp
            push_neg at hg
            refine ⟨?_, ?_, ?_, ?_, indexKeysSorted_chain es2 hsorted⟩
            · intro hnil
              subst hnil
              simp at hlen
              omega
            · omega
            · intro e he
              exact ⟨(hall e he).1, (hall e he).2.1⟩
            · intro e he
              exact ⟨(hall e he).2.2.1, (hall e he).2.2.2⟩
          · exact absurd h (by simp)

/-- C5 counterexample: the file above has two equal adjacent index keys,
yet `loadIndex` accepts it, and a `Get` for that key reaches the index
and returns `NotFound` with no error — nothing reports `ErrCorruptSST`. -/
theorem dup_index_keys_counterexample :
    loadIndex dupIndexFile = some ([⟨[97], 8⟩, ⟨[97], 9⟩], 10) ∧
    sstGet dupIndexFile [97] = SstOut.notFound ∧
    SstOut.notFound ≠ SstOut.corrupt := by
  refine ⟨by rfl, by rfl, by decide⟩

theorem loadIndex_spec_witness :
    ([⟨[97], 8⟩, ⟨[98], 9⟩] : List IndexEntryM) ≠ [] ∧
    ([⟨[97], 8⟩, ⟨[98], 9⟩] : List IndexEntryM).length ≤ maxIndexCount ∧
    (∀ e ∈ ([⟨[97], 8⟩, ⟨[98], 9⟩] : List IndexEntryM),
      1 ≤ e.key.length ∧ e.key.length ≤ maxIndexKeySize) ∧
    (∀ e ∈ ([⟨[97], 8⟩, ⟨[98], 9⟩] : List IndexEntryM),
      headerSize ≤ e.offset ∧ e.offset < 10) ∧
    ([⟨[97], 8⟩, ⟨[98], 9⟩] : List IndexEntryM).Chain'
      (fun a b => ltKey b.key a.key = false) :=
  loadIndex_spec goodIndexFile [⟨[97], 8⟩, ⟨[98], 9⟩] 10 (by rfl)

theorem listSlice_append_left (A B : List Nat) (a b : Nat) (hb : b ≤ A.length) :
    listSlice (A ++ B) a b = listSlice A a b := by
  unfold listSlice
  by_cases ha : a ≤ A.length
  · rw [List.drop_append_of_le_length ha,
        List.take_append_of_le_length (by simp only [List.length_drop]; omega)]
  · have hb0 : b - a = 0 := by omega
    simp [hb0]

theorem listSlice_take (l : List Nat) (a p q : Nat) (hq : q ≤ a) :
    listSlice (l.take a) p q = listSlice l p q := by
  unfold listSlice
  rw [List.drop_take, List.take_take]
  congr 1
  omega

theorem mutateRegion_length (file junk : List Nat) {a b : Nat}
    (hab : a ≤ b) (hb : b ≤ file.length) (hj : junk.length = b - a) :
    (mutateRegion file junk a b).length = file.length := by
  simp only [mutateRegion, List.length_append, List.length_take, List.length_drop]
  omega

theorem mutateRegion_slice_ge (file junk : List Nat) {a b p q : Nat}
    (hab : a ≤ b) (hb : b ≤ file.length) (hj : junk.length = b - a) (hp : b ≤ p) :
    listSlice (mutateRegion file junk a b) p q = listSlice file p q := by
  have hA : (file.take a ++ junk).length = b := by
    simp only [List.length_append, List.length_take]
    omega
  unfold listSlice mutateRegion
  rw [List.drop_append_eq_append_drop, List.drop_eq_nil_of_le (by omega),
      List.nil_append, hA, List.drop_drop]
  congr 2
  omega

theorem mutateRegion_slice_le (file junk : List Nat) {a b p q : Nat}
    (hab : a ≤ b) (hb : b ≤ file.length) (hj : junk.length = b - a) (hq : q ≤ a) :
    listSlice (mutateRegion file junk a b) p q = listSlice file p q := by
  have hA : (file.take a ++ junk).length = b := by
    simp only [List.length_append, List.length_take]
    omega
  unfold mutateRegion
  rw [listSlice_append_left _ _ _ _ (by omega),
      listSlice_append_left _ _ _ _ (by simp only [List.length_take]; omega),
      listSlice_take _ _ _ _ hq]

theorem readU32At_congr {l l2 : List Nat} (p : Nat)
    (h : listSlice l p (p + 4) = listSlice l2 p (p + 4)) :
    readU32At l p = readU32At l2 p := by
  unfold readU32At
  rw [h]

theorem readU64At_congr {l l2 : List Nat} (p : Nat)
    (h : listSlice l p (p + 8) = listSlice l2 p (p + 8)) :
    readU64At l p = readU64At l2 p := by
  unfold readU64At
  rw [h]

theorem loadFooter_congr {l l2 : List Nat} (hl : l2.length = l.length)
    (h1 : readU64At l2 (l.length - footerSize) = readU64At l (l.length - footerSize))
    (h2 : readU64At l2 (l.length - footerSize + 8) =
          readU64At l (l.length - footerSize + 8)) :
    loadFooter l2 = loadFooter l := by
  unfold loadFooter
  rw [hl, h1, h2]

theorem loadFooter_bounds {file : List Nat} {iS bS : Nat}
    (h : loadFooter file = some (iS, bS)) :
    headerSize + footerSize ≤ file.length ∧ headerSize ≤ iS ∧ iS < bS ∧
      bS < file.length - footerSize := by
  unfold loadFooter at h
  split at h
  · simp at h
  · rename_i hlen
    cases h1 : readU64At file (file.length - footerSize) with
    | none => rw [h1] at h; simp at h
    | some v1 =>
      rw [h1, Option.some_bind] at h
      cases h2 : readU64At file (file.length - footerSize + 8) with
      | none => rw [h2] at h; simp at h
      | some v2 =>
        rw [h2, Option.some_bind] at h
        split at h
        · simp at h
        · split at h
          · simp at h
          · split at h
            · simp at h
            · split at h
              · simp at h
              · rename_i g1 g2 g3 g4
                injection h with h'
                injection h' with ha hb
                subst ha
                subst hb
                omega

theorem unmarshalBloom_nonzero {p : List Nat} {bf : BloomM}
    (h : unmarshalBloom p = some bf) : bf.m ≠ 0 ∧ bf.k ≠ 0 := by
  unfold unmarshalBloom at h
  cases h0 : readU32 p with
  | none => rw [h0] at h; simp at h
  | some p1 =>
    rw [h0, Option.some_bind] at h
    cases h1 : readByte p1.2 with
    | none => rw [h1] at h; simp at h
    | some kb =>
      rw [h1, Option.some_bind] at h
      cases h2 : takeExact 3 kb.2 with
      | none => rw [h2] at h; simp at h
      | some pad =>
        rw [h2, Option.some_bind] at h
        cases h3 : readU32 pad.2 with
        | none => rw [h3] at h; simp at h
        | some p2 =>
          rw [h3, Option.some_bind] at h
          split at h
          · simp at h
          · split at h
            · simp at h
            · rename_i g1 g2
              injection h with h'
              subst h'
              push_neg at g1
              exact ⟨g1.1, g1.2⟩

theorem exists_list4 {l : List Nat} (h : l.length = 4) :
    ∃ a b c d, l = [a, b, c, d] := by
  match l, h with
  | [a, b, c, d], _ => exact ⟨a, b, c, d, rfl⟩

theorem readU32At_isSome {l : List Nat} {p : Nat} (h : p + 4 ≤ l.length) :
    ∃ v, readU32At l p = some v := by
  have hlen : (listSlice l p (p + 4)).length = 4 := by
    simp only [listSlice, List.length_take, List.length_drop]
    omega
  obtain ⟨a, b, c, d, he⟩ := exists_list4 hlen
  refine ⟨a + 256 * b + 65536 * c + 16777216 * d, ?_⟩
  unfold readU32At
  rw [he]

/-- evaluating `sstable.Get` down the bloom-negative path: with a valid
magic, a readable count, a valid footer, and a bloom region that
deserializes and excludes the key, the pipeline stops at `NotFound`
before touching the index. -/
theorem sstRange_bloom_neg (file key : List Nat) (iS bS c : Nat) (bf : BloomM)
    (hf : loadFooter file = some (iS, bS))
    (hm : readU32At file 0 = some sstMagic)
    (hc : readU32At file 4 = some c)
    (hb : unmarshalBloom (listSlice file bS (file.length - footerSize)) = some bf)
    (hneg : mayContain bf key = false) :
    sstRange file key = .error .notFound := by
  obtain ⟨hm0, hk0⟩ := unmarshalBloom_nonzero hb
  unfold sstRange
  rw [hm]
  simp only [orOut, Except.bind]
  rw [if_neg (fun hh => hh rfl)]
  rw [hc]
  simp only [orOut, Except.bind]
  rw [hf]
  simp only [orOut, Except.bind]
  rw [hb]
  simp only [orOut, Except.bind]
  rw [if_neg (by simp [hm0, hk0])]
  rw [if_pos hneg]

/-- C6: the bloom-filter negative short-circuit.  For a key the bloom
filter excludes, `Get` returns `NotFound` with no error, and it does so
for EVERY content of the index region `[indexStartOffset,
bloomStartOffset)`: overwriting that region with arbitrary bytes of the
same length leaves the result `NotFound`, since the path never reads the
index. -/
theorem bloom_negative_shortcircuit (file junk key : List Nat) (iS bS : Nat)
    (bf : BloomM)
    (hf : loadFooter file = some (iS, bS))
    (hm : readU32At file 0 = some sstMagic)
    (hb : unmarshalBloom (listSlice file bS (file.length - footerSize)) = some bf)
    (hneg : mayContain bf key = false)
    (hj : junk.length = bS - iS) :
    sstGet file key = SstOut.notFound ∧
    sstGet (mutateRegion file junk iS bS) key = SstOut.notFound := by
  obtain ⟨hlen, hiS, hib, hbf⟩ := loadFooter_bounds hf
  simp only [headerSize, footerSize] at hlen hiS hib hbf
  have hab : iS ≤ bS := by omega
  have hble : bS ≤ file.length := by omega
  obtain ⟨c, hc⟩ := readU32At_isSome (l := file) (p := 4) (by omega)
  have h1 : sstRange file key = .error .notFound :=
    sstRange_bloom_neg file key iS bS c bf hf hm hc hb hneg
  refine ⟨by rw [sstGet, h1], ?_⟩
  have hlen2 := mutateRegion_length file junk hab hble hj
  have hp1 : bS ≤ file.length - footerSize := by
    simp only [footerSize]
    omega
  have hp2 : bS ≤ file.length - footerSize + 8 := by
    simp only [footerSize]
    omega
  have hq1 : 0 + 4 ≤ iS := by omega
  have hq2 : 4 + 4 ≤ iS := by omega
  have hm2 : readU32At (mutateRegion file junk iS bS) 0 = some sstMagic :=
    (readU32At_congr 0 (mutateRegion_slice_le file junk hab hble hj hq1)).trans hm
  have hc2 : readU32At (mutateRegion file junk iS bS) 4 = some c :=
    (readU32At_congr 4 (mutateRegion_slice_le file junk hab hble hj hq2)).trans hc
  have hf2 : loadFooter (mutateRegion file junk iS bS) = some (iS, bS) := by
    rw [loadFooter_congr hlen2
      (readU64At_congr _ (mutateRegion_slice_ge file junk hab hble hj hp1))
      (readU64At_congr _ (mutateRegion_slice_ge file junk hab hble hj hp2))]
    exact hf
  have hb2 : unmarshalBloom
      (listSlice (mutateRegion file junk iS bS) bS
        ((mutateRegion file junk iS bS).length - footerSize)) = some bf := by
    rw [hlen2, mutateRegion_slice_ge file junk hab hble hj (Nat.le_refl bS)]
    exact hb
  have h2 : sstRange (mutateRegion file junk iS bS) key = .error .notFound :=
    sstRange_bloom_neg _ key iS bS c bf hf2 hm2 hc2 hb2 hneg
  rw [sstGet, h2]

theorem bloom_negative_shortcircuit_witness :
    sstGet bloomNegFile [122] = SstOut.notFound ∧
    sstGet (mutateRegion bloomNegFile (List.replicate 30 255) 10 40) [122] =
      SstOut.notFound :=
  bloom_negative_shortcircuit bloomNegFile (List.replicate 30 255) [122] 10 40
    ⟨8, 1, [0]⟩ (by rfl) (by rfl) (by rfl) (by rfl) (by rfl)

theorem getLastD_cons' (a d : Nat) (l : List Nat) :
    (a :: l).getLastD d = l.getLastD a := by
  cases l with
  | nil => rfl
  | cons b m => rfl

theorem getLastD_append_cons (C P : List Nat) (a d : Nat) :
    (C ++ a :: P).getLastD d = P.getLastD a := by
  induction C generalizing d with
  | nil => rw [List.nil_append, getLastD_cons']
  | cons c rest ih =>
    rw [List.cons_append, getLastD_cons']
    exact ih c

theorem takeWhile_all_true {p : Nat → Bool} {l : List Nat} :
    ∀ x ∈ l.takeWhile p, p x = true := by
  intro x hx
  exact List.mem_takeWhile_imp hx

theorem head_dropWhile_false {p : Nat → Bool} :
    ∀ {l : List Nat} {a : Nat}, (l.dropWhile p).head? = some a → p a = false := by
  intro l
  induction l with
  | nil => intro a h; simp [List.dropWhile] at h
  | cons x rest ih =>
    intro a h
    rw [List.dropWhile_cons] at h
    split at h
    · exact ih h
    · rename_i hpx
      simp only [List.head?_cons, Option.some_inj] at h
      rw [← h]
      cases hb : p x
      · rfl
      · exact absurd hb hpx

theorem takeWhile_append_all {p : Nat → Bool} {l1 l2 : List Nat}
    (h1 : ∀ x ∈ l1, p x = true) (h2 : ∀ a, l2.head? = some a → p a = false) :
    (l1 ++ l2).takeWhile p = l1 ∧ (l1 ++ l2).dropWhile p = l2 := by
  induction l1 with
  | nil =>
    simp only [List.nil_append]
    cases l2 with
    | nil => simp
    | cons a rest =>
      have ha := h2 a rfl
      constructor
      · rw [List.takeWhile_cons, ha]
        simp
      · rw [List.dropWhile_cons, ha]
        simp
  | cons x l1t ih =>
    have hx := h1 x (by simp)
    have ih2 := ih (fun y hy => h1 y (List.mem_cons_of_mem x hy))
    constructor
    · rw [List.cons_append, List.takeWhile_cons, hx]
      simp [ih2.1]
    · rw [List.cons_append, List.dropWhile_cons, hx]
      simp [ih2.2]

theorem walkLevel_zero (s : SkipListM) (k : List Nat) (i x : Nat) :
    walkLevel s k i x 0 = x := rfl

theorem walkLevel_succ (s : SkipListM) (k : List Nat) (i x f : Nat) :
    walkLevel s k i x (f + 1) =
      match fwd s x i with
      | none => x
      | some y => if ltKey (nodeAt s y).key k then walkLevel s k i y f else x := rfl

theorem seg_chain {s : SkipListM} {i x y : Nat} {l m : List Nat}
    (hs : Seg s i x l y) (hc : IsChain s i y m) : IsChain s i x (l ++ m) := by
  induction hs with
  | nil => simpa using hc
  | cons hf _ ih => exact IsChain.cons hf (ih hc)

theorem chain_split {s : SkipListM} {i : Nat} :
    ∀ {l1 : List Nat} {x : Nat} {l2 : List Nat}, IsChain s i x (l1 ++ l2) →
      Seg s i x l1 (l1.getLastD x) ∧ IsChain s i (l1.getLastD x) l2 := by
  intro l1
  induction l1 with
  | nil =>
    intro x l2 h
    exact ⟨Seg.nil, by simpa using h⟩
  | cons a rest ih =>
    intro x l2 h
    rw [List.cons_append] at h
    cases h with
    | cons hf hc =>
      obtain ⟨hseg, hchain⟩ := ih hc
      rw [getLastD_cons']
      exact ⟨Seg.cons hf hseg, hchain⟩

theorem chain_congr {s s2 : SkipListM} {i x : Nat} {l : List Nat}
    (h : IsChain s i x l) (hagree : ∀ w ∈ x :: l, fwd s2 w i = fwd s w i) :
    IsChain s2 i x l := by
  induction h with
  | nil hf =>
    exact IsChain.nil ((hagree _ (by simp)).trans hf)
  | cons hf _ ih =>
    rename_i x1 y1 l1
    exact IsChain.cons ((hagree _ (by simp)).trans hf)
      (ih fun w hw => hagree w (by simp at hw ⊢; tauto))

theorem seg_congr {s s2 : SkipListM} {i : Nat} :
    ∀ {x : Nat} {l : List Nat} {z : Nat}, Seg s i x l z →
      (∀ w ∈ (x :: l).dropLast, fwd s2 w i = fwd s w i) → Seg s2 i x l z := by
  intro x l z hs
  induction hs with
  | nil => intro _; exact Seg.nil
  | cons hf hseg ih =>
    rename_i x1 y1 z1 l1
    intro hagree
    refine Seg.cons ((hagree x1 ?_).trans hf) (ih ?_)
    · show x1 ∈ (x1 :: y1 :: l1).dropLast
      rw [List.dropLast_cons₂]
      simp
    · intro w hw
      apply hagree
      rw [List.dropLast_cons₂]
      exact List.mem_cons_of_mem x1 hw

theorem walkLevel_spec (s : SkipListM) (k : List Nat) (i : Nat) :
    ∀ (P : List Nat) (Q : List Nat) (x fuel : Nat),
      IsChain s i x (P ++ Q) →
      (∀ p ∈ P, keyLt s k p = true) →
      (∀ a, Q.head? = some a → keyLt s k a = false) →
      P.length ≤ fuel →
      walkLevel s k i x fuel = P.getLastD x ∧ fwd s (P.getLastD x) i = Q.head? := by
  intro P
  induction P with
  | nil =>
    intro Q x fuel hch hP hQ _
    rw [List.nil_append] at hch
    have hfwd : fwd s x i = Q.head? := by
      cases hch with
      | nil hf => simpa using hf
      | cons hf _ => simpa using hf
    refine ⟨?_, by simpa using hfwd⟩
    cases fuel with
    | zero => rfl
    | succ f =>
      rw [walkLevel_succ]
      cases hq : fwd s x i with
      | none => rfl
      | some y =>
        have hy : Q.head? = some y := by rw [← hfwd, hq]
        have := hQ y hy
        simp only [keyLt] at this
        simp [this]
  | cons p P2 ih =>
    intro Q x fuel hch hP hQ hfuel
    rw [List.cons_append] at hch
    cases hch with
    | cons hf hc =>
      match fuel, hfuel with
      | f + 1, hfuel =>
        have hp := hP p (by simp)
        simp only [keyLt] at hp
        rw [walkLevel_succ, hf]
        simp only [hp, if_true]
        rw [getLastD_cons']
        exact ih Q p f hc (fun q hq => hP q (by simp [hq])) hQ
          (by simp at hfuel; omega)

theorem getLastD_mem_or_nil (l : List Nat) (d : Nat) :
    l = [] ∨ l.getLastD d ∈ l := by
  induction l generalizing d with
  | nil => exact Or.inl rfl
  | cons a rest ih =>
    refine Or.inr ?_
    rw [getLastD_cons']
    rcases ih a with hnil | hmem
    · subst hnil
      simp
    · exact List.mem_cons_of_mem a hmem

theorem slinv_nodup {s : SkipListM} {l0 : List Nat} (h : SLInv s l0) : l0.Nodup := by
  refine h.sorted.imp ?_
  intro a b hab heq
  subst heq
  rw [ltKey_irrefl] at hab
  exact absurd hab (by simp)

theorem slinv_nodes_pos {s : SkipListM} {l0 : List Nat} (h : SLInv s l0) :
    1 ≤ s.nodes.length := by
  cases hn : s.nodes with
  | nil =>
    have hh := h.headLen
    rw [nodeAt, hn] at hh
    simp [maxLevel] at hh
  | cons a t => simp

theorem slinv_l0_lt {s : SkipListM} {l0 : List Nat} (h : SLInv s l0) :
    l0.length < s.nodes.length := by
  have hnd := slinv_nodup h
  have hsub : l0.toFinset ⊆ Finset.Ioo 0 s.nodes.length := by
    intro x hx
    rw [List.mem_toFinset] at hx
    obtain ⟨h1, h2⟩ := h.mem x hx
    rw [Finset.mem_Ioo]
    exact ⟨h1, h2⟩
  have hcard : l0.toFinset.card = l0.length := List.toFinset_card_of_nodup hnd
  have hle := Finset.card_le_card hsub
  rw [hcard, Nat.card_Ioo] at hle
  have := slinv_nodes_pos h
  omega

theorem levelList_sorted {s : SkipListM} {l0 : List Nat} (h : SLInv s l0) (i : Nat) :
    List.Pairwise (fun a b => ltKey (nodeAt s a).key (nodeAt s b).key = true)
      (levelList s l0 i) :=
  List.Pairwise.sublist (List.filter_sublist l0) h.sorted

theorem chainAB (s : SkipListM) (l0 k : List Nat) (i : Nat) :
    chainA s l0 k i ++ chainB s l0 k i = levelList s l0 i := by
  unfold chainA chainB
  exact List.takeWhile_append_dropWhile _ _

theorem memA_lt (s : SkipListM) (l0 k : List Nat) (i : Nat) :
    ∀ x ∈ chainA s l0 k i, keyLt s k x = true :=
  fun _ hx => takeWhile_all_true _ hx

theorem headB (s : SkipListM) (l0 k : List Nat) (i : Nat) :
    ∀ a, (chainB s l0 k i).head? = some a → keyLt s k a = false :=
  fun _ h => head_dropWhile_false h

theorem memB_ge {s : SkipListM} {l0 : List Nat} (h : SLInv s l0) (k : List Nat) (i : Nat) :
    ∀ b ∈ chainB s l0 k i, keyLt s k b = false := by
  have hsorted : List.Pairwise
      (fun a b => ltKey (nodeAt s a).key (nodeAt s b).key = true) (chainB s l0 k i) :=
    List.Pairwise.sublist (List.dropWhile_sublist _) (levelList_sorted h i)
  intro b hb
  cases hB : chainB s l0 k i with
  | nil => rw [hB] at hb; simp at hb
  | cons hd tl =>
    rw [hB] at hb hsorted
    have hhd : keyLt s k hd = false := headB s l0 k i hd (by rw [hB]; rfl)
    rcases List.mem_cons.mp hb with rfl | htl
    · exact hhd
    · have hp : ltKey (nodeAt s hd).key (nodeAt s b).key = true :=
        (List.pairwise_cons.mp hsorted).1 b htl
      cases hc : keyLt s k b
      · rfl
      · have : keyLt s k hd = true := by
          simp only [keyLt] at hc ⊢
          exact ltKey_trans hp hc
        rw [hhd] at this
        exact absurd this (by simp)

theorem chainU_cases (s : SkipListM) (l0 k : List Nat) (i : Nat) :
    chainU s l0 k i = 0 ∨ chainU s l0 k i ∈ chainA s l0 k i := by
  unfold chainU
  rcases getLastD_mem_or_nil (chainA s l0 k i) 0 with hnil | hmem
  · rw [hnil]
    exact Or.inl rfl
  · exact Or.inr hmem

theorem mem_chainA_of {s : SkipListM} {l0 : List Nat} (h : SLInv s l0) {k : List Nat}
    {i x : Nat} (hmem : x ∈ levelList s l0 i) (hlt : keyLt s k x = true) :
    x ∈ chainA s l0 k i := by
  have hx : x ∈ chainA s l0 k i ++ chainB s l0 k i := by
    rw [chainAB]
    exact hmem
  rcases List.mem_append.mp hx with hA | hB
  · exact hA
  · rw [memB_ge h k i x hB] at hlt
    exact absurd hlt (by simp)

theorem memA_succ {s : SkipListM} {l0 : List Nat} (h : SLInv s l0) {k : List Nat}
    {i x : Nat} (hx : x ∈ chainA s l0 k (i + 1)) : x ∈ chainA s l0 k i := by
  have hlt := memA_lt s l0 k (i + 1) x hx
  have hlev : x ∈ levelList s l0 (i + 1) := (List.takeWhile_sublist _).subset hx
  have hlev2 : x ∈ levelList s l0 i := by
    unfold levelList at hlev ⊢
    rw [List.mem_filter] at hlev ⊢
    refine ⟨hlev.1, ?_⟩
    have := of_decide_eq_true hlev.2
    exact decide_eq_true (by omega)
  exact mem_chainA_of h hlev2 hlt

theorem walk_at_level {s : SkipListM} {l0 : List Nat} (h : SLInv s l0) (k : List Nat)
    (i : Nat) (hi : i < maxLevel) :
    walkLevel s k i (chainU s l0 k (i + 1)) s.nodes.length = chainU s l0 k i ∧
    fwd s (chainU s l0 k i) i = (chainB s l0 k i).head? := by
  have hchain := h.chains i hi
  have hlenA : (chainA s l0 k i).length ≤ l0.length :=
    le_trans (List.Sublist.length_le (List.takeWhile_sublist _))
      (List.length_filter_le _ _)
  have hl0 := slinv_l0_lt h
  rcases chainU_cases s l0 k (i + 1) with h0 | hmem
  · rw [h0]
    have hch : IsChain s i 0 (chainA s l0 k i ++ chainB s l0 k i) := by
      rw [chainAB]
      exact hchain
    exact walkLevel_spec s k i (chainA s l0 k i) (chainB s l0 k i) 0 s.nodes.length hch
      (memA_lt s l0 k i) (headB s l0 k i) (by omega)
  · have haA : chainU s l0 k (i + 1) ∈ chainA s l0 k i := memA_succ h hmem
    obtain ⟨C, P, hCP⟩ := List.append_of_mem haA
    have hlev : levelList s l0 i =
        (C ++ [chainU s l0 k (i + 1)]) ++ (P ++ chainB s l0 k i) := by
      rw [← chainAB s l0 k i, hCP]
      simp [List.append_assoc]
    have hchain2 := hchain
    rw [hlev] at hchain2
    obtain ⟨_, hch2⟩ := chain_split hchain2
    have hlast : (C ++ [chainU s l0 k (i + 1)]).getLastD 0 = chainU s l0 k (i + 1) := by
      rw [getLastD_append_cons]
      rfl
    rw [hlast] at hch2
    have hPlen : P.length ≤ (chainA s l0 k i).length := by
      rw [hCP]
      simp
      omega
    have hres := walkLevel_spec s k i P (chainB s l0 k i) (chainU s l0 k (i + 1))
      s.nodes.length hch2
      (fun p hp => memA_lt s l0 k i p (by rw [hCP]; simp [hp]))
      (headB s l0 k i) (by omega)
    have hu : chainU s l0 k i = P.getLastD (chainU s l0 k (i + 1)) := by
      show (chainA s l0 k i).getLastD 0 = _
      rw [hCP, getLastD_append_cons]
    rw [hu]
    exact hres

theorem chainA_of_level_le {s : SkipListM} {l0 : List Nat} (h : SLInv s l0) (k : List Nat)
    {i : Nat} (hi : s.level ≤ i) : chainA s l0 k i = [] ∧ chainU s l0 k i = 0 := by
  have hempty : levelList s l0 i = [] := by
    unfold levelList
    rw [List.filter_eq_nil]
    intro x hx
    have := (h.hts x hx).2
    simp only [decide_eq_true_eq]
    omega
  have hA : chainA s l0 k i = [] := by
    unfold chainA
    rw [hempty]
    rfl
  exact ⟨hA, by unfold chainU; rw [hA]; rfl⟩

theorem descend_succ (s : SkipListM) (k : List Nat) (x i : Nat) :
    descend s k x (i + 1) =
      descend s k (walkLevel s k i x s.nodes.length) i ++
        [walkLevel s k i x s.nodes.length] := rfl

theorem descend_spec {s : SkipListM} {l0 : List Nat} (h : SLInv s l0) (k : List Nat) :
    ∀ n, n ≤ s.level → descend s k (chainU s l0 k n) n =
      (List.range n).map (chainU s l0 k) := by
  intro n
  induction n with
  | zero => intro _; rfl
  | succ i ih =>
    intro hn
    have hi : i < maxLevel := Nat.lt_of_lt_of_le (show i < s.level by omega) h.levelUB
    have hw := (walk_at_level h k i hi).1
    rw [descend_succ, hw, ih (by omega), List.range_succ, List.map_append]
    rfl

theorem upds_eq {s : SkipListM} {l0 : List Nat} (h : SLInv s l0) (k : List Nat) :
    descend s k 0 s.level = (List.range s.level).map (chainU s l0 k) := by
  have h0 := (chainA_of_level_le h k (Nat.le_refl s.level)).2
  rw [← h0]
  exact descend_spec h k s.level (Nat.le_refl _)

theorem updAt_spec {s : SkipListM} {l0 : List Nat} (h : SLInv s l0) (k : List Nat)
    (i : Nat) : updAt (descend s k 0 s.level) i = chainU s l0 k i := by
  rw [upds_eq h k]
  unfold updAt
  by_cases hi : i < s.level
  · rw [List.getD_eq_getElem?_getD, List.getElem?_map, List.getElem?_range hi]
    rfl
  · have hz := (chainA_of_level_le h k (i := i) (by omega)).2
    rw [hz]
    rw [List.getD_eq_getElem?_getD]
    have hlen : ((List.range s.level).map (chainU s l0 k)).length = s.level := by simp
    rw [List.getElem?_eq_none (by omega)]
    rfl

theorem nodeAt_setNode (s : SkipListM) (x : Nat) (nd : SLNode) (w : Nat) :
    nodeAt (setNode s x nd) w =
      if x = w ∧ x < s.nodes.length then nd else nodeAt s w := by
  unfold nodeAt setNode
  by_cases hxw : x = w
  · subst hxw
    by_cases hx : x < s.nodes.length
    · rw [if_pos ⟨rfl, hx⟩, List.getD_eq_getElem?_getD, List.getElem?_set_self]
      · rfl
      · exact hx
    · rw [if_neg (by tauto), List.getD_eq_getElem?_getD,
          List.getElem?_eq_none (by simp; omega), List.getD_eq_getElem?_getD,
          List.getElem?_eq_none (by omega)]
  · rw [if_neg (by tauto), List.getD_eq_getElem?_getD, List.getElem?_set_ne hxw,
        ← List.getD_eq_getElem?_getD]

theorem setNode_length (s : SkipListM) (x : Nat) (nd : SLNode) :
    (setNode s x nd).nodes.length = s.nodes.length := by
  simp [setNode]

theorem setNode_level (s : SkipListM) (x : Nat) (nd : SLNode) :
    (setNode s x nd).level = s.level := rfl

theorem setFwd_length (s : SkipListM) (x i : Nat) (v : Option Nat) :
    (setFwd s x i v).nodes.length = s.nodes.length :=
  setNode_length _ _ _

theorem setFwd_level (s : SkipListM) (x i : Nat) (v : Option Nat) :
    (setFwd s x i v).level = s.level := rfl

theorem nodeAt_setFwd_key (s : SkipListM) (x i : Nat) (v : Option Nat) (w : Nat) :
    (nodeAt (setFwd s x i v) w).key = (nodeAt s w).key ∧
    (nodeAt (setFwd s x i v) w).entry = (nodeAt s w).entry ∧
    (nodeAt (setFwd s x i v) w).forward.length = (nodeAt s w).forward.length := by
  unfold setFwd
  rw [nodeAt_setNode]
  split
  · rename_i hc
    obtain ⟨rfl, _⟩ := hc
    refine ⟨rfl, rfl, ?_⟩
    simp
  · exact ⟨rfl, rfl, rfl⟩

theorem fwd_setFwd_same (s : SkipListM) (x i : Nat) (v : Option Nat)
    (hx : x < s.nodes.length) (hi : i < (nodeAt s x).forward.length) :
    fwd (setFwd s x i v) x i = v := by
  unfold fwd setFwd
  rw [nodeAt_setNode, if_pos ⟨rfl, hx⟩]
  show ((nodeAt s x).forward.set i v).getD i none = v
  rw [List.getD_eq_getElem?_getD, List.getElem?_set_self]
  · rfl
  · exact hi

theorem fwd_setFwd_other (s : SkipListM) (x i : Nat) (v : Option Nat) (w j : Nat)
    (h : ¬(x = w ∧ i = j)) : fwd (setFwd s x i v) w j = fwd s w j := by
  unfold fwd setFwd
  rw [nodeAt_setNode]
  split
  · rename_i hc
    obtain ⟨rfl, _⟩ := hc
    have hij : i ≠ j := fun he => h ⟨rfl, he⟩
    show ((nodeAt s x).forward.set i v).getD j none = _
    rw [List.getD_eq_getElem?_getD, List.getElem?_set_ne hij,
        ← List.getD_eq_getElem?_getD]
  · rfl

theorem nodeAt_setEntry (s : SkipListM) (y : Nat) (e : EntryM) (w : Nat) :
    nodeAt (setEntry s y e) w =
      if y = w ∧ y < s.nodes.length then { nodeAt s y with entry := e }
      else nodeAt s w := by
  unfold setEntry
  rw [nodeAt_setNode]

theorem fwd_setEntry (s : SkipListM) (y : Nat) (e : EntryM) (w i : Nat) :
    fwd (setEntry s y e) w i = fwd s w i := by
  unfold fwd
  rw [nodeAt_setEntry]
  split
  · rename_i hc
    obtain ⟨rfl, _⟩ := hc
    rfl
  · rfl

theorem key_setEntry (s : SkipListM) (y : Nat) (e : EntryM) (w : Nat) :
    (nodeAt (setEntry s y e) w).key = (nodeAt s w).key ∧
    (nodeAt (setEntry s y e) w).forward.length = (nodeAt s w).forward.length := by
  rw [nodeAt_setEntry]
  split
  · rename_i hc
    obtain ⟨rfl, _⟩ := hc
    exact ⟨rfl, rfl⟩
  · exact ⟨rfl, rfl⟩

theorem linkPreds_length (s2 : SkipListM) (u : List Nat) (nid : Nat) :
    ∀ j, (linkPreds s2 u nid j).nodes.length = s2.nodes.length := by
  intro j
  induction j with
  | zero => rfl
  | succ m ih =>
    show (setFwd (linkPreds s2 u nid m) _ _ _).nodes.length = _
    rw [setFwd_length, ih]

theorem linkPreds_level (s2 : SkipListM) (u : List Nat) (nid : Nat) :
    ∀ j, (linkPreds s2 u nid j).level = s2.level := by
  intro j
  induction j with
  | zero => rfl
  | succ m ih =>
    show (setFwd (linkPreds s2 u nid m) _ _ _).level = _
    rw [setFwd_level, ih]

theorem nodeAt_linkPreds (s2 : SkipListM) (u : List Nat) (nid : Nat) :
    ∀ j w, (nodeAt (linkPreds s2 u nid j) w).key = (nodeAt s2 w).key ∧
      (nodeAt (linkPreds s2 u nid j) w).entry = (nodeAt s2 w).entry ∧
      (nodeAt (linkPreds s2 u nid j) w).forward.length =
        (nodeAt s2 w).forward.length := by
  intro j
  induction j with
  | zero => intro w; exact ⟨rfl, rfl, rfl⟩
  | succ m ih =>
    intro w
    have hs := nodeAt_setFwd_key (linkPreds s2 u nid m) (updAt u m) m (some nid) w
    have hm := ih w
    exact ⟨hs.1.trans hm.1, hs.2.1.trans hm.2.1, hs.2.2.trans hm.2.2⟩

theorem fwd_linkPreds (s2 : SkipListM) (u : List Nat) (nid : Nat) :
    ∀ j, (∀ b, b < j → updAt u b < s2.nodes.length ∧
        b < (nodeAt s2 (updAt u b)).forward.length) →
    ∀ w i, fwd (linkPreds s2 u nid j) w i =
      if i < j ∧ updAt u i = w then some nid else fwd s2 w i := by
  intro j
  induction j with
  | zero =>
    intro _ w i
    rw [if_neg (by omega)]
    rfl
  | succ m ih =>
    intro hb w i
    have hbm := hb m (by omega)
    show fwd (setFwd (linkPreds s2 u nid m) (updAt u m) m (some nid)) w i = _
    by_cases hcase : updAt u m = w ∧ m = i
    · obtain ⟨hw, hi⟩ := hcase
      subst hw
      subst hi
      rw [fwd_setFwd_same]
      · rw [if_pos ⟨by omega, rfl⟩]
      · rw [linkPreds_length]
        exact hbm.1
      · rw [(nodeAt_linkPreds s2 u nid m (updAt u m)).2.2]
        exact hbm.2
    · rw [fwd_setFwd_other _ _ _ _ _ _ hcase,
          ih (fun b hb2 => hb b (by omega)) w i]
      by_cases h1 : i < m ∧ updAt u i = w
      · rw [if_pos h1, if_pos ⟨by omega, h1.2⟩]
      · rw [if_neg h1, if_neg ?_]
        intro h2
        obtain ⟨h2a, h2b⟩ := h2
        by_cases him : i = m
        · subst him
          exact hcase ⟨h2b, rfl⟩
        · exact h1 ⟨by omega, h2b⟩

theorem nodeAt_append_lt (s : SkipListM) (nd : SLNode) (lv w : Nat)
    (hw : w < s.nodes.length) :
    nodeAt ⟨s.nodes ++ [nd], lv⟩ w = nodeAt s w := by
  unfold nodeAt
  show (s.nodes ++ [nd]).getD w _ = _
  rw [List.getD_eq_getElem?_getD, List.getElem?_append, if_pos hw,
      ← List.getD_eq_getElem?_getD]

theorem nodeAt_append_self (s : SkipListM) (nd : SLNode) (lv : Nat) :
    nodeAt ⟨s.nodes ++ [nd], lv⟩ s.nodes.length = nd := by
  unfold nodeAt
  show (s.nodes ++ [nd]).getD s.nodes.length _ = _
  rw [List.getD_eq_getElem?_getD, List.getElem?_append_right (le_refl _)]
  simp

theorem newFwd_getD (s : SkipListM) (u : List Nat) (lvl i : Nat) :
    ((List.range lvl).map (fun j => fwd s (updAt u j) j)).getD i none =
      if i < lvl then fwd s (updAt u i) i else none := by
  by_cases hi : i < lvl
  · rw [if_pos hi, List.getD_eq_getElem?_getD, List.getElem?_map,
        List.getElem?_range hi]
    rfl
  · rw [if_neg hi, List.getD_eq_getElem?_getD, List.getElem?_eq_none (by simp; omega)]
    rfl

theorem insertNew_def (s : SkipListM) (k : List Nat) (e : EntryM) (lvl : Nat)
    (u : List Nat) :
    insertNew s k e lvl u = linkPreds (insState s k e lvl u) u s.nodes.length lvl :=
  rfl

theorem insState_length (s : SkipListM) (k : List Nat) (e : EntryM) (lvl : Nat)
    (u : List Nat) : (insState s k e lvl u).nodes.length = s.nodes.length + 1 := by
  simp [insState]

theorem insState_nodeAt_lt (s : SkipListM) (k : List Nat) (e : EntryM) (lvl : Nat)
    (u : List Nat) (w : Nat) (hw : w < s.nodes.length) :
    nodeAt (insState s k e lvl u) w = nodeAt s w :=
  nodeAt_append_lt s _ _ w hw

theorem insState_nodeAt_new (s : SkipListM) (k : List Nat) (e : EntryM) (lvl : Nat)
    (u : List Nat) :
    nodeAt (insState s k e lvl u) s.nodes.length =
      ⟨k, e, (List.range lvl).map (fun i => fwd s (updAt u i) i)⟩ :=
  nodeAt_append_self s _ _

theorem insertNew_length (s : SkipListM) (k : List Nat) (e : EntryM) (lvl : Nat)
    (u : List Nat) :
    (insertNew s k e lvl u).nodes.length = s.nodes.length + 1 := by
  rw [insertNew_def, linkPreds_length, insState_length]

theorem insertNew_level (s : SkipListM) (k : List Nat) (e : EntryM) (lvl : Nat)
    (u : List Nat) :
    (insertNew s k e lvl u).level = if s.level < lvl then lvl else s.level := by
  rw [insertNew_def, linkPreds_level]
  rfl

theorem insertNew_nodeAt_old (s : SkipListM) (k : List Nat) (e : EntryM) (lvl : Nat)
    (u : List Nat) (w : Nat) (hw : w < s.nodes.length) :
    (nodeAt (insertNew s k e lvl u) w).key = (nodeAt s w).key ∧
    (nodeAt (insertNew s k e lvl u) w).entry = (nodeAt s w).entry ∧
    (nodeAt (insertNew s k e lvl u) w).forward.length =
      (nodeAt s w).forward.length := by
  rw [insertNew_def]
  have h1 := nodeAt_linkPreds (insState s k e lvl u) u s.nodes.length lvl w
  rw [insState_nodeAt_lt s k e lvl u w hw] at h1
  exact h1

theorem insertNew_nodeAt_new (s : SkipListM) (k : List Nat) (e : EntryM) (lvl : Nat)
    (u : List Nat) :
    (nodeAt (insertNew s k e lvl u) s.nodes.length).key = k ∧
    (nodeAt (insertNew s k e lvl u) s.nodes.length).entry = e ∧
    (nodeAt (insertNew s k e lvl u) s.nodes.length).forward.length = lvl := by
  rw [insertNew_def]
  have h1 := nodeAt_linkPreds (insState s k e lvl u) u s.nodes.length lvl
    s.nodes.length
  rw [insState_nodeAt_new s k e lvl u] at h1
  refine ⟨h1.1, h1.2.1, h1.2.2.trans ?_⟩
  simp

theorem insState_bounds (s : SkipListM) (k : List Nat) (e : EntryM) (lvl : Nat)
    (u : List Nat)
    (hb : ∀ b, b < lvl → updAt u b < s.nodes.length ∧
      b < (nodeAt s (updAt u b)).forward.length) :
    ∀ b, b < lvl → updAt u b < (insState s k e lvl u).nodes.length ∧
      b < (nodeAt (insState s k e lvl u) (updAt u b)).forward.length := by
  intro b hbl
  obtain ⟨hb1, hb2⟩ := hb b hbl
  rw [insState_length, insState_nodeAt_lt s k e lvl u _ hb1]
  exact ⟨by omega, hb2⟩

theorem insertNew_fwd_old (s : SkipListM) (k : List Nat) (e : EntryM) (lvl : Nat)
    (u : List Nat)
    (hb : ∀ b, b < lvl → updAt u b < s.nodes.length ∧
      b < (nodeAt s (updAt u b)).forward.length)
    (w i : Nat) (hw : w < s.nodes.length) :
    fwd (insertNew s k e lvl u) w i =
      if i < lvl ∧ updAt u i = w then some s.nodes.length else fwd s w i := by
  rw [insertNew_def,
      fwd_linkPreds (insState s k e lvl u) u s.nodes.length lvl
        (insState_bounds s k e lvl u hb) w i]
  split
  · rfl
  · show fwd (insState s k e lvl u) w i = fwd s w i
    unfold fwd
    rw [insState_nodeAt_lt s k e lvl u w hw]

theorem insertNew_fwd_new (s : SkipListM) (k : List Nat) (e : EntryM) (lvl : Nat)
    (u : List Nat)
    (hb : ∀ b, b < lvl → updAt u b < s.nodes.length ∧
      b < (nodeAt s (updAt u b)).forward.length)
    (i : Nat) :
    fwd (insertNew s k e lvl u) s.nodes.length i =
      if i < lvl then fwd s (updAt u i) i else none := by
  rw [insertNew_def,
      fwd_linkPreds (insState s k e lvl u) u s.nodes.length lvl
        (insState_bounds s k e lvl u hb) s.nodes.length i]
  rw [if_neg ?_]
  · show fwd (insState s k e lvl u) s.nodes.length i = _
    unfold fwd
    rw [insState_nodeAt_new s k e lvl u]
    exact newFwd_getD s u lvl i
  · intro hcon
    have := (hb i hcon.1).1
    omega

theorem head?_mem {l : List Nat} {a : Nat} (h : l.head? = some a) : a ∈ l := by
  cases l with
  | nil => simp at h
  | cons x t =>
    simp only [List.head?_cons, Option.some_inj] at h
    subst h
    simp

theorem levelList_zero {s : SkipListM} {l0 : List Nat} (h : SLInv s l0) :
    levelList s l0 0 = l0 := by
  unfold levelList
  rw [List.filter_eq_self]
  intro x hx
  have := (h.hts x hx).1
  simp only [decide_eq_true_eq]
  omega

theorem l0_split {s : SkipListM} {l0 : List Nat} (h : SLInv s l0) (k : List Nat) :
    chainA s l0 k 0 ++ chainB s l0 k 0 = l0 :=
  (chainAB s l0 k 0).trans (levelList_zero h)

theorem chainA_sub_l0 (s : SkipListM) (l0 k : List Nat) (i : Nat) :
    ∀ x ∈ chainA s l0 k i, x ∈ l0 := by
  intro x hx
  exact (List.filter_sublist l0).subset ((List.takeWhile_sublist _).subset hx)

theorem chainB_sub_l0 (s : SkipListM) (l0 k : List Nat) (i : Nat) :
    ∀ x ∈ chainB s l0 k i, x ∈ l0 := by
  intro x hx
  exact (List.filter_sublist l0).subset ((List.dropWhile_sublist _).subset hx)

theorem chainA_nodup {s : SkipListM} {l0 : List Nat} (h : SLInv s l0) (k : List Nat)
    (i : Nat) : (chainA s l0 k i).Nodup :=
  List.Nodup.sublist ((List.takeWhile_sublist _).trans (List.filter_sublist l0))
    (slinv_nodup h)

theorem levelList_nodup {s : SkipListM} {l0 : List Nat} (h : SLInv s l0) (i : Nat) :
    (levelList s l0 i).Nodup :=
  List.Nodup.sublist (List.filter_sublist l0) (slinv_nodup h)

theorem chainU_bounds {s : SkipListM} {l0 : List Nat} (h : SLInv s l0) (k : List Nat)
    {b : Nat} (hbm : b < maxLevel) :
    chainU s l0 k b < s.nodes.length ∧
    b < (nodeAt s (chainU s l0 k b)).forward.length := by
  rcases chainU_cases s l0 k b with h0 | hmem
  · rw [h0]
    refine ⟨slinv_nodes_pos h, ?_⟩
    rw [h.headLen]
    exact hbm
  · have hlev : chainU s l0 k b ∈ levelList s l0 b :=
      (List.takeWhile_sublist _).subset hmem
    have hl0 : chainU s l0 k b ∈ l0 := (List.filter_sublist l0).subset hlev
    have hh := (List.mem_filter.mp hlev).2
    exact ⟨(h.mem _ hl0).2, of_decide_eq_true hh⟩

theorem chainA_filter_level {s : SkipListM} {l0 : List Nat} (h : SLInv s l0)
    (k : List Nat) (i : Nat) :
    (chainA s l0 k 0).filter
      (fun x => decide (i < (nodeAt s x).forward.length)) = chainA s l0 k i ∧
    (chainB s l0 k 0).filter
      (fun x => decide (i < (nodeAt s x).forward.length)) = chainB s l0 k i := by
  have hsplit : levelList s l0 i =
      (chainA s l0 k 0).filter (fun x => decide (i < (nodeAt s x).forward.length)) ++
      (chainB s l0 k 0).filter (fun x => decide (i < (nodeAt s x).forward.length)) := by
    unfold levelList
    rw [← List.filter_append, l0_split h k]
  have hA : ∀ x ∈ (chainA s l0 k 0).filter
      (fun x => decide (i < (nodeAt s x).forward.length)), keyLt s k x = true :=
    fun x hx => memA_lt s l0 k 0 x ((List.filter_sublist _).subset hx)
  have hB : ∀ a, ((chainB s l0 k 0).filter
      (fun x => decide (i < (nodeAt s x).forward.length))).head? = some a →
      keyLt s k a = false :=
    fun a ha => memB_ge h k 0 a ((List.filter_sublist _).subset (head?_mem ha))
  have key := takeWhile_append_all (p := keyLt s k) hA hB
  constructor
  · have e1 : chainA s l0 k i =
        ((chainA s l0 k 0).filter (fun x => decide (i < (nodeAt s x).forward.length)) ++
         (chainB s l0 k 0).filter
           (fun x => decide (i < (nodeAt s x).forward.length))).takeWhile (keyLt s k) := by
      show (levelList s l0 i).takeWhile (keyLt s k) = _
      rw [hsplit]
    rw [e1]
    exact key.1.symm
  · have e2 : chainB s l0 k i =
        ((chainA s l0 k 0).filter (fun x => decide (i < (nodeAt s x).forward.length)) ++
         (chainB s l0 k 0).filter
           (fun x => decide (i < (nodeAt s x).forward.length))).dropWhile (keyLt s k) := by
      show (levelList s l0 i).dropWhile (keyLt s k) = _
      rw [hsplit]
    rw [e2]
    exact key.2.symm

theorem not_mem_dropLast_getLast {l : List Nat} (hnd : l.Nodup) (hne : l ≠ [])
    {w : Nat} (hw : w ∈ l.dropLast) : w ≠ l.getLastD 0 := by
  have hsplit := List.dropLast_append_getLast hne
  have hlast : l.getLastD 0 = l.getLast hne := by
    rw [List.getLastD_eq_getLast?, List.getLast?_eq_getLast l hne]
    rfl
  rw [hlast]
  intro heq
  subst heq
  have hnd2 : (l.dropLast ++ [l.getLast hne]).Nodup := by
    rw [hsplit]
    exact hnd
  have := List.disjoint_of_nodup_append hnd2 hw
  simp at this

theorem insertNew_fwd_l0 {s : SkipListM} {l0 : List Nat} (h : SLInv s l0)
    (k : List Nat) (e : EntryM) {lvl : Nat} (hl2 : lvl ≤ maxLevel)
    (w i : Nat) (hw : w < s.nodes.length) :
    fwd (insertNew s k e lvl (descend s k 0 s.level)) w i =
      if i < lvl ∧ chainU s l0 k i = w then some s.nodes.length else fwd s w i := by
  have hb : ∀ b, b < lvl → updAt (descend s k 0 s.level) b < s.nodes.length ∧
      b < (nodeAt s (updAt (descend s k 0 s.level) b)).forward.length := by
    intro b hbl
    rw [updAt_spec h k b]
    exact chainU_bounds h k (Nat.lt_of_lt_of_le hbl hl2)
  rw [insertNew_fwd_old s k e lvl _ hb w i hw, updAt_spec h k i]

theorem insertNew_fwd_n {s : SkipListM} {l0 : List Nat} (h : SLInv s l0)
    (k : List Nat) (e : EntryM) {lvl : Nat} (hl2 : lvl ≤ maxLevel) (i : Nat) :
    fwd (insertNew s k e lvl (descend s k 0 s.level)) s.nodes.length i =
      if i < lvl then fwd s (chainU s l0 k i) i else none := by
  have hb : ∀ b, b < lvl → updAt (descend s k 0 s.level) b < s.nodes.length ∧
      b < (nodeAt s (updAt (descend s k 0 s.level) b)).forward.length := by
    intro b hbl
    rw [updAt_spec h k b]
    exact chainU_bounds h k (Nat.lt_of_lt_of_le hbl hl2)
  rw [insertNew_fwd_new s k e lvl _ hb i, updAt_spec h k i]

theorem insertNew_levelList {s : SkipListM} {l0 : List Nat} (h : SLInv s l0)
    (k : List Nat) (e : EntryM) {lvl : Nat} (u : List Nat) (i : Nat) :
    levelList (insertNew s k e lvl u)
      (chainA s l0 k 0 ++ s.nodes.length :: chainB s l0 k 0) i =
      chainA s l0 k i ++
        (if i < lvl then s.nodes.length :: chainB s l0 k i else chainB s l0 k i) := by
  have hAc : (chainA s l0 k 0).filter
      (fun x => decide (i < (nodeAt (insertNew s k e lvl u) x).forward.length)) =
      chainA s l0 k i := by
    rw [List.filter_congr (fun x hx => ?_), (chainA_filter_level h k i).1]
    rw [(insertNew_nodeAt_old s k e lvl u x
      (h.mem x (chainA_sub_l0 s l0 k 0 x hx)).2).2.2]
  have hBc : (chainB s l0 k 0).filter
      (fun x => decide (i < (nodeAt (insertNew s k e lvl u) x).forward.length)) =
      chainB s l0 k i := by
    rw [List.filter_congr (fun x hx => ?_), (chainA_filter_level h k i).2]
    rw [(insertNew_nodeAt_old s k e lvl u x
      (h.mem x (chainB_sub_l0 s l0 k 0 x hx)).2).2.2]
  show List.filter _ (chainA s l0 k 0 ++ s.nodes.length :: chainB s l0 k 0) = _
  rw [List.filter_append, List.filter_cons, hAc, hBc,
      (insertNew_nodeAt_new s k e lvl u).2.2]
  by_cases hil : i < lvl
  · rw [if_pos (by simpa using hil), if_pos hil]
  · rw [if_neg (by simpa using hil), if_neg hil]

theorem insertNew_chain_ge {s : SkipListM} {l0 : List Nat} (h : SLInv s l0)
    (k : List Nat) (e : EntryM) {lvl : Nat} (hl2 : lvl ≤ maxLevel)
    {i : Nat} (hi : i < maxLevel) (hil : ¬ i < lvl) :
    IsChain (insertNew s k e lvl (descend s k 0 s.level)) i 0 (levelList s l0 i) := by
  refine chain_congr (h.chains i hi) ?_
  intro w hw
  have hwn : w < s.nodes.length := by
    rcases List.mem_cons.mp hw with rfl | hw2
    · exact slinv_nodes_pos h
    · exact (h.mem w ((List.filter_sublist l0).subset hw2)).2
  rw [insertNew_fwd_l0 h k e hl2 w i hwn, if_neg (by tauto)]

theorem insertNew_chain_lt {s : SkipListM} {l0 : List Nat} (h : SLInv s l0)
    (k : List Nat) (e : EntryM) {lvl : Nat} (hl2 : lvl ≤ maxLevel)
    {i : Nat} (hi : i < maxLevel) (hil : i < lvl) :
    IsChain (insertNew s k e lvl (descend s k 0 s.level)) i 0
      (chainA s l0 k i ++ s.nodes.length :: chainB s l0 k i) := by
  have hchain0 : IsChain s i 0 (chainA s l0 k i ++ chainB s l0 k i) := by
    rw [chainAB]
    exact h.chains i hi
  obtain ⟨hseg, hchB⟩ := chain_split hchain0
  have hUdef : (chainA s l0 k i).getLastD 0 = chainU s l0 k i := rfl
  rw [hUdef] at hseg hchB
  have hseg2 : Seg (insertNew s k e lvl (descend s k 0 s.level)) i 0
      (chainA s l0 k i) (chainU s l0 k i) := by
    refine seg_congr hseg ?_
    intro w hw
    have hw2 : w ∈ 0 :: chainA s l0 k i := (List.dropLast_sublist _).subset hw
    have hwn : w < s.nodes.length := by
      rcases List.mem_cons.mp hw2 with rfl | hw3
      · exact slinv_nodes_pos h
      · exact (h.mem w (chainA_sub_l0 s l0 k i w hw3)).2
    have hne : ¬ (i < lvl ∧ chainU s l0 k i = w) := by
      rintro ⟨-, hUw⟩
      cases hAi : chainA s l0 k i with
      | nil =>
        rw [hAi] at hw
        simp at hw
      | cons a t =>
        have hmem : chainU s l0 k i ∈ chainA s l0 k i := by
          unfold chainU
          rcases getLastD_mem_or_nil (chainA s l0 k i) 0 with hnil | hm
          · rw [hAi] at hnil
            exact absurd hnil (by simp)
          · exact hm
        rw [hAi, List.dropLast_cons₂] at hw
        rcases List.mem_cons.mp hw with rfl | hw4
        · have hpos := (h.mem _ (chainA_sub_l0 s l0 k i _ hmem)).1
          omega
        · have hnd : (chainA s l0 k i).Nodup := chainA_nodup h k i
          have hAiNe : chainA s l0 k i ≠ [] := by
            rw [hAi]
            simp
          have hwne := not_mem_dropLast_getLast hnd hAiNe
            (w := w) (by rw [hAi]; exact hw4)
          rw [hUdef] at hwne
          exact hwne hUw.symm
    rw [insertNew_fwd_l0 h k e hl2 w i hwn, if_neg hne]
  have hUn : chainU s l0 k i < s.nodes.length := (chainU_bounds h k hi).1
  have hlink : fwd (insertNew s k e lvl (descend s k 0 s.level))
      (chainU s l0 k i) i = some s.nodes.length := by
    rw [insertNew_fwd_l0 h k e hl2 _ i hUn, if_pos ⟨hil, rfl⟩]
  have hnf : fwd (insertNew s k e lvl (descend s k 0 s.level)) s.nodes.length i =
      (chainB s l0 k i).head? := by
    rw [insertNew_fwd_n h k e hl2 i, if_pos hil]
    exact (walk_at_level h k i hi).2
  have hchB2 : IsChain (insertNew s k e lvl (descend s k 0 s.level)) i
      s.nodes.length (chainB s l0 k i) := by
    cases hBi : chainB s l0 k i with
    | nil =>
      rw [hBi] at hnf
      exact IsChain.nil (by simpa using hnf)
    | cons b tl =>
      rw [hBi] at hnf hchB
      cases hchB with
      | cons hfb hct =>
        refine IsChain.cons (by simpa using hnf) ?_
        refine chain_congr hct ?_
        intro w hw
        have hwB : w ∈ chainB s l0 k i := by
          rw [hBi]
          exact hw
        have hwn : w < s.nodes.length :=
          (h.mem w (chainB_sub_l0 s l0 k i w hwB)).2
        have hne : ¬ (i < lvl ∧ chainU s l0 k i = w) := by
          rintro ⟨-, hUw⟩
          rcases chainU_cases s l0 k i with h0 | hm
          · rw [h0] at hUw
            have := (h.mem w (chainB_sub_l0 s l0 k i w hwB)).1
            omega
          · have hnd : (levelList s l0 i).Nodup := levelList_nodup h i
            rw [← chainAB s l0 k i] at hnd
            have hdisj := List.disjoint_of_nodup_append hnd
            rw [hUw] at hm
            exact hdisj hm hwB
        rw [insertNew_fwd_l0 h k e hl2 w i hwn, if_neg hne]
  exact seg_chain hseg2 (IsChain.cons hlink hchB2)

theorem slinv_insertNew {s : SkipListM} {l0 : List Nat} (h : SLInv s l0)
    {k : List Nat} (hnone : ∀ y ∈ l0, (nodeAt s y).key ≠ k) (e : EntryM)
    {lvl : Nat} (hl1 : 1 ≤ lvl) (hl2 : lvl ≤ maxLevel) :
    SLInv (insertNew s k e lvl (descend s k 0 s.level))
      (chainA s l0 k 0 ++ s.nodes.length :: chainB s l0 k 0) := by
  refine ⟨?_, ?_, ?_, ?_, ?_, ?_, ?_, ?_⟩
  · exact (insertNew_nodeAt_old s k e lvl _ 0 (slinv_nodes_pos h)).2.2.trans h.headLen
  · rw [insertNew_level]
    have := h.levelLB
    split <;> omega
  · rw [insertNew_level]
    have := h.levelUB
    split <;> omega
  · intro x hx
    rw [insertNew_length]
    rcases List.mem_append.mp hx with hA | hx2
    · have := h.mem x (chainA_sub_l0 s l0 k 0 x hA)
      omega
    · rcases List.mem_cons.mp hx2 with rfl | hB
      · have := slinv_nodes_pos h
        omega
      · have := h.mem x (chainB_sub_l0 s l0 k 0 x hB)
        omega
  · intro x hx
    rw [insertNew_level]
    rcases List.mem_append.mp hx with hA | hx2
    · have hxl : x ∈ l0 := chainA_sub_l0 s l0 k 0 x hA
      rw [(insertNew_nodeAt_old s k e lvl _ x (h.mem x hxl).2).2.2]
      obtain ⟨h1, h2⟩ := h.hts x hxl
      exact ⟨h1, by split <;> omega⟩
    · rcases List.mem_cons.mp hx2 with rfl | hB
      · rw [(insertNew_nodeAt_new s k e lvl _).2.2]
        exact ⟨hl1, by split <;> omega⟩
      · have hxl : x ∈ l0 := chainB_sub_l0 s l0 k 0 x hB
        rw [(insertNew_nodeAt_old s k e lvl _ x (h.mem x hxl).2).2.2]
        obtain ⟨h1, h2⟩ := h.hts x hxl
        exact ⟨h1, by split <;> omega⟩
  · have hkA : ∀ x ∈ chainA s l0 k 0,
        (nodeAt (insertNew s k e lvl (descend s k 0 s.level)) x).key =
          (nodeAt s x).key := fun x hx =>
      (insertNew_nodeAt_old s k e lvl _ x
        (h.mem x (chainA_sub_l0 s l0 k 0 x hx)).2).1
    have hkB : ∀ x ∈ chainB s l0 k 0,
        (nodeAt (insertNew s k e lvl (descend s k 0 s.level)) x).key =
          (nodeAt s x).key := fun x hx =>
      (insertNew_nodeAt_old s k e lvl _ x
        (h.mem x (chainB_sub_l0 s l0 k 0 x hx)).2).1
    have hkn : (nodeAt (insertNew s k e lvl (descend s k 0 s.level))
        s.nodes.length).key = k := (insertNew_nodeAt_new s k e lvl _).1
    have hkb_gt : ∀ b ∈ chainB s l0 k 0, ltKey k (nodeAt s b).key = true := by
      intro b hb
      have hfalse : ltKey (nodeAt s b).key k = false := memB_ge h k 0 b hb
      cases hc : ltKey k (nodeAt s b).key
      · exact absurd (ltKey_conn hfalse hc)
          (hnone b (chainB_sub_l0 s l0 k 0 b hb))
      · rfl
    rw [List.pairwise_append]
    refine ⟨?_, ?_, ?_⟩
    · refine List.Pairwise.imp_of_mem (fun ha hb hr => ?_)
        (List.Pairwise.sublist
          ((List.takeWhile_sublist _).trans (List.filter_sublist l0)) h.sorted)
      rename_i a b
      rw [hkA a ha, hkA b hb]
      exact hr
    · rw [List.pairwise_cons]
      refine ⟨fun b hb => ?_, ?_⟩
      · rw [hkn, hkB b hb]
        exact hkb_gt b hb
      · refine List.Pairwise.imp_of_mem (fun ha hb hr => ?_)
          (List.Pairwise.sublist
            ((List.dropWhile_sublist _).trans (List.filter_sublist l0)) h.sorted)
        rename_i a b
        rw [hkB a ha, hkB b hb]
        exact hr
    · intro a ha b hb
      have hak : ltKey (nodeAt s a).key k = true := memA_lt s l0 k 0 a ha
      rcases List.mem_cons.mp hb with rfl | hb2
      · rw [hkA a ha, hkn]
        exact hak
      · rw [hkA a ha, hkB b hb2]
        exact ltKey_trans hak (hkb_gt b hb2)
  · intro x hx0 hxn
    rw [insertNew_length] at hxn
    by_cases hxlt : x < s.nodes.length
    · have hl0m := h.complete x hx0 hxlt
      rw [← l0_split h k] at hl0m
      rcases List.mem_append.mp hl0m with hA | hB
      · exact List.mem_append.mpr (Or.inl hA)
      · exact List.mem_append.mpr (Or.inr (List.mem_cons_of_mem _ hB))
    · have hxe : x = s.nodes.length := by omega
      subst hxe
      exact List.mem_append.mpr (Or.inr (List.mem_cons_self _ _))
  · intro i hi
    rw [insertNew_levelList h k e _ i]
    by_cases hil : i < lvl
    · rw [if_pos hil]
      exact insertNew_chain_lt h k e hl2 hi hil
    · rw [if_neg hil, chainAB]
      exact insertNew_chain_ge h k e hl2 hi hil

theorem setEntry_length (s : SkipListM) (x : Nat) (e : EntryM) :
    (setEntry s x e).nodes.length = s.nodes.length := by
  simp [setEntry, setNode]

theorem setEntry_level (s : SkipListM) (x : Nat) (e : EntryM) :
    (setEntry s x e).level = s.level := rfl

theorem setEntry_key (s : SkipListM) (x : Nat) (e : EntryM) (w : Nat) :
    (nodeAt (setEntry s x e) w).key = (nodeAt s w).key := by
  rw [nodeAt_setEntry]
  split
  · rename_i hc
    obtain ⟨rfl, -⟩ := hc
    rfl
  · rfl

theorem setEntry_forward (s : SkipListM) (x : Nat) (e : EntryM) (w : Nat) :
    (nodeAt (setEntry s x e) w).forward = (nodeAt s w).forward := by
  rw [nodeAt_setEntry]
  split
  · rename_i hc
    obtain ⟨rfl, -⟩ := hc
    rfl
  · rfl

theorem setEntry_entry_self (s : SkipListM) (x : Nat) (e : EntryM)
    (hx : x < s.nodes.length) : (nodeAt (setEntry s x e) x).entry = e := by
  rw [nodeAt_setEntry, if_pos ⟨rfl, hx⟩]

theorem levelList_setEntry (s : SkipListM) (x : Nat) (e : EntryM) (l0 : List Nat)
    (i : Nat) : levelList (setEntry s x e) l0 i = levelList s l0 i := by
  unfold levelList
  refine List.filter_congr ?_
  intro y hy
  rw [setEntry_forward]

theorem slinv_setEntry {s : SkipListM} {l0 : List Nat} (h : SLInv s l0)
    (x : Nat) (e : EntryM) : SLInv (setEntry s x e) l0 := by
  refine ⟨?_, ?_, ?_, ?_, ?_, ?_, ?_, ?_⟩
  · rw [setEntry_forward]
    exact h.headLen
  · rw [setEntry_level]
    exact h.levelLB
  · rw [setEntry_level]
    exact h.levelUB
  · intro y hy
    rw [setEntry_length]
    exact h.mem y hy
  · intro y hy
    rw [setEntry_forward, setEntry_level]
    exact h.hts y hy
  · refine h.sorted.imp ?_
    intro a b hab
    rw [setEntry_key, setEntry_key]
    exact hab
  · intro y h1 h2
    rw [setEntry_length] at h2
    exact h.complete y h1 h2
  · intro i hi
    rw [levelList_setEntry]
    exact chain_congr (h.chains i hi) (fun w _ => fwd_setEntry s x e w i)

theorem key_absent {s : SkipListM} {l0 : List Nat} (h : SLInv s l0) {k : List Nat}
    (hhead : ∀ b, (chainB s l0 k 0).head? = some b → (nodeAt s b).key ≠ k) :
    ∀ y ∈ l0, (nodeAt s y).key ≠ k := by
  intro y hy hkey
  have hy2 : y ∈ chainA s l0 k 0 ++ chainB s l0 k 0 := by
    rw [l0_split h k]
    exact hy
  rcases List.mem_append.mp hy2 with hA | hB
  · have hlt : ltKey (nodeAt s y).key k = true := memA_lt s l0 k 0 y hA
    rw [hkey, ltKey_irrefl] at hlt
    exact absurd hlt (by simp)
  · cases hBv : chainB s l0 k 0 with
    | nil =>
      rw [hBv] at hB
      simp at hB
    | cons b tl =>
      rw [hBv] at hB
      rcases List.mem_cons.mp hB with rfl | htl
      · exact hhead y (by rw [hBv]; rfl) hkey
      · have hsorted : List.Pairwise
            (fun a b => ltKey (nodeAt s a).key (nodeAt s b).key = true)
            (chainB s l0 k 0) :=
          List.Pairwise.sublist (List.dropWhile_sublist _) (levelList_sorted h 0)
        rw [hBv] at hsorted
        have hby := (List.pairwise_cons.mp hsorted).1 y htl
        have hbf : ltKey (nodeAt s b).key k = false :=
          memB_ge h k 0 b (by rw [hBv]; simp)
        rw [hkey] at hby
        rw [hbf] at hby
        exact absurd hby (by simp)

theorem head_chainB_of_key {s : SkipListM} {l0 : List Nat} (h : SLInv s l0)
    {k : List Nat} {y : Nat} (hy : y ∈ l0) (hk : (nodeAt s y).key = k) :
    (chainB s l0 k 0).head? = some y := by
  have hy2 : y ∈ chainA s l0 k 0 ++ chainB s l0 k 0 := by
    rw [l0_split h k]
    exact hy
  rcases List.mem_append.mp hy2 with hA | hB
  · have hlt : ltKey (nodeAt s y).key k = true := memA_lt s l0 k 0 y hA
    rw [hk, ltKey_irrefl] at hlt
    exact absurd hlt (by simp)
  · cases hBv : chainB s l0 k 0 with
    | nil =>
      rw [hBv] at hB
      simp at hB
    | cons b tl =>
      rw [hBv] at hB
      rcases List.mem_cons.mp hB with rfl | htl
      · rfl
      · have hsorted : List.Pairwise
            (fun a b => ltKey (nodeAt s a).key (nodeAt s b).key = true)
            (chainB s l0 k 0) :=
          List.Pairwise.sublist (List.dropWhile_sublist _) (levelList_sorted h 0)
        rw [hBv] at hsorted
        have hby := (List.pairwise_cons.mp hsorted).1 y htl
        have hbf : ltKey (nodeAt s b).key k = false :=
          memB_ge h k 0 b (by rw [hBv]; simp)
        rw [hk] at hby
        rw [hbf] at hby
        exact absurd hby (by simp)

theorem key_unique {s : SkipListM} {l0 : List Nat} (h : SLInv s l0) {y z : Nat}
    (hy : y ∈ l0) (hz : z ∈ l0) (hk : (nodeAt s y).key = (nodeAt s z).key) :
    y = z := by
  by_contra hne
  have hS : List.Pairwise (fun a b => (nodeAt s a).key ≠ (nodeAt s b).key) l0 := by
    refine h.sorted.imp ?_
    intro a b hab hkey
    rw [hkey, ltKey_irrefl] at hab
    exact absurd hab (by simp)
  have hsym : Symmetric (fun a b : Nat => (nodeAt s a).key ≠ (nodeAt s b).key) :=
    fun a b hab hba => hab hba.symm
  exact absurd hk (List.Pairwise.forall hsym hS hy hz hne)

theorem upsert_cases {s : SkipListM} {l0 : List Nat} (h : SLInv s l0) (k : List Nat)
    (e : EntryM) (lvl : Nat) :
    (∃ y ∈ l0, (nodeAt s y).key = k ∧ upsert s k e lvl = setEntry s y e) ∨
    ((∀ y ∈ l0, (nodeAt s y).key ≠ k) ∧
      upsert s k e lvl = insertNew s k e lvl (descend s k 0 s.level)) := by
  have h016 : (0:Nat) < maxLevel := by norm_num [maxLevel]
  have hf : fwd s (updAt (descend s k 0 s.level) 0) 0 = (chainB s l0 k 0).head? := by
    rw [updAt_spec h k 0]
    exact (walk_at_level h k 0 h016).2
  have hup : upsert s k e lvl =
      match fwd s (updAt (descend s k 0 s.level) 0) 0 with
      | some y => if (nodeAt s y).key = k then setEntry s y e
                  else insertNew s k e lvl (descend s k 0 s.level)
      | none => insertNew s k e lvl (descend s k 0 s.level) := rfl
  rw [hf] at hup
  cases hB : chainB s l0 k 0 with
  | nil =>
    rw [hB] at hup
    refine Or.inr ⟨?_, hup⟩
    refine key_absent h ?_
    intro b hb
    rw [hB] at hb
    simp at hb
  | cons b tl =>
    rw [hB] at hup
    simp only [List.head?_cons] at hup
    by_cases hmatch : (nodeAt s b).key = k
    · refine Or.inl ⟨b, ?_, hmatch, ?_⟩
      · exact chainB_sub_l0 s l0 k 0 b (by rw [hB]; simp)
      · rw [hup, if_pos hmatch]
    · refine Or.inr ⟨?_, by rw [hup, if_neg hmatch]⟩
      refine key_absent h ?_
      intro b2 hb2
      rw [hB] at hb2
      simp only [List.head?_cons, Option.some_inj] at hb2
      subst hb2
      exact hmatch

theorem randomLevelAux_range : ∀ (coins : List Nat) (lvl : Nat),
    1 ≤ lvl → lvl ≤ maxLevel →
    1 ≤ randomLevelAux coins lvl ∧ randomLevelAux coins lvl ≤ maxLevel := by
  intro coins
  induction coins with
  | nil =>
    intro lvl h1 h2
    exact ⟨h1, h2⟩
  | cons c rest ih =>
    intro lvl h1 h2
    unfold randomLevelAux
    split
    · rename_i hc
      exact ih (lvl + 1) (by omega) (by omega)
    · exact ⟨h1, h2⟩

theorem randomLevel_range (coins : List Nat) :
    1 ≤ randomLevel coins ∧ randomLevel coins ≤ maxLevel :=
  randomLevelAux_range coins 1 (le_refl 1) (by norm_num [maxLevel])

theorem getD_replicate_none (n i : Nat) :
    (List.replicate n (none : Option Nat)).getD i none = none := by
  simp [List.getD_eq_getElem?_getD]

theorem slinv_emptySL : SLInv emptySL [] := by
  refine ⟨rfl, le_refl 1, by norm_num [emptySL, maxLevel], ?_, ?_, List.Pairwise.nil,
    ?_, ?_⟩
  · intro x hx
    simp at hx
  · intro x hx
    simp at hx
  · intro x h1 h2
    simp [emptySL] at h2
    omega
  · intro i hi
    have hl : levelList emptySL [] i = [] := rfl
    rw [hl]
    refine IsChain.nil ?_
    show (List.replicate maxLevel (none : Option Nat)).getD i none = none
    exact getD_replicate_none maxLevel i

theorem slinv_upsert {s : SkipListM} {l0 : List Nat} (h : SLInv s l0)
    (k : List Nat) (e : EntryM) {lvl : Nat} (hl1 : 1 ≤ lvl) (hl2 : lvl ≤ maxLevel) :
    ∃ l0t : List Nat, SLInv (upsert s k e lvl) l0t := by
  rcases upsert_cases h k e lvl with ⟨y, hy, hk, heq⟩ | ⟨habs, heq⟩
  · exact ⟨l0, by rw [heq]; exact slinv_setEntry h y e⟩
  · exact ⟨_, by rw [heq]; exact slinv_insertNew h habs e hl1 hl2⟩

theorem slinv_fold (ops : List ((List Nat × EntryM) × List Nat)) :
    ∀ (s : SkipListM) (l0 : List Nat), SLInv s l0 →
    ∃ l0t, SLInv
      (ops.foldl (fun t op => upsert t op.1.1 op.1.2 (randomLevel op.2)) s) l0t := by
  induction ops with
  | nil =>
    intro s l0 h
    exact ⟨l0, h⟩
  | cons op rest ih =>
    intro s l0 h
    rw [List.foldl_cons]
    obtain ⟨hr1, hr2⟩ := randomLevel_range op.2
    obtain ⟨l1, h1⟩ := slinv_upsert h op.1.1 op.1.2 hr1 hr2
    exact ih _ l1 h1

theorem descendX_spec {s : SkipListM} {l0 : List Nat} (h : SLInv s l0) (k : List Nat) :
    ∀ n, n ≤ s.level → descendX s k (chainU s l0 k n) n = chainU s l0 k 0 := by
  intro n
  induction n with
  | zero => intro _; rfl
  | succ i ih =>
    intro hn
    have hi : i < maxLevel := Nat.lt_of_lt_of_le (show i < s.level by omega) h.levelUB
    have hw := (walk_at_level h k i hi).1
    show descendX s k (walkLevel s k i (chainU s l0 k (i + 1)) s.nodes.length) i = _
    rw [hw]
    exact ih (by omega)

theorem descendX_top {s : SkipListM} {l0 : List Nat} (h : SLInv s l0) (k : List Nat) :
    descendX s k 0 s.level = chainU s l0 k 0 := by
  have h0 := (chainA_of_level_le h k (Nat.le_refl s.level)).2
  have hr := descendX_spec h k s.level (Nat.le_refl _)
  rw [h0] at hr
  exact hr

theorem slSearch_spec {s : SkipListM} {l0 : List Nat} (h : SLInv s l0) (k : List Nat) :
    slSearch s k =
      match (chainB s l0 k 0).head? with
      | some y => if (nodeAt s y).key = k then some (nodeAt s y).entry else none
      | none => none := by
  have h016 : (0:Nat) < maxLevel := by norm_num [maxLevel]
  have hf : fwd s (descendX s k 0 s.level) 0 = (chainB s l0 k 0).head? := by
    rw [descendX_top h k]
    exact (walk_at_level h k 0 h016).2
  show (match fwd s (descendX s k 0 s.level) 0 with
      | some y => if (nodeAt s y).key = k then some (nodeAt s y).entry else none
      | none => none) = _
  rw [hf]

theorem slSearch_upsert {s : SkipListM} {l0 : List Nat} (h : SLInv s l0)
    (k : List Nat) (e : EntryM) {lvl : Nat} (hl1 : 1 ≤ lvl) (hl2 : lvl ≤ maxLevel) :
    slSearch (upsert s k e lvl) k = some e := by
  rcases upsert_cases h k e lvl with ⟨y, hy, hk, heq⟩ | ⟨habs, heq⟩
  · rw [heq]
    have hinv2 := slinv_setEntry h y e
    rw [slSearch_spec hinv2 k]
    have hkeyLt : keyLt (setEntry s y e) k = keyLt s k := by
      funext x
      unfold keyLt
      rw [setEntry_key]
    have hBeq : chainB (setEntry s y e) l0 k 0 = chainB s l0 k 0 := by
      unfold chainB
      rw [hkeyLt, levelList_setEntry]
    rw [hBeq, head_chainB_of_key h hy hk]
    show (if (nodeAt (setEntry s y e) y).key = k
        then some (nodeAt (setEntry s y e) y).entry else none) = some e
    rw [setEntry_key, if_pos hk, setEntry_entry_self s y e (h.mem y hy).2]
  · rw [heq]
    have hinv2 := slinv_insertNew h habs e hl1 hl2
    rw [slSearch_spec hinv2 k]
    have hB2 : chainB (insertNew s k e lvl (descend s k 0 s.level))
        (chainA s l0 k 0 ++ s.nodes.length :: chainB s l0 k 0) k 0 =
        s.nodes.length :: chainB s l0 k 0 := by
      rw [show chainB (insertNew s k e lvl (descend s k 0 s.level))
            (chainA s l0 k 0 ++ s.nodes.length :: chainB s l0 k 0) k 0 =
          List.dropWhile (keyLt (insertNew s k e lvl (descend s k 0 s.level)) k)
            (levelList (insertNew s k e lvl (descend s k 0 s.level))
              (chainA s l0 k 0 ++ s.nodes.length :: chainB s l0 k 0) 0) from rfl]
      rw [insertNew_levelList h k e _ 0, if_pos (show 0 < lvl by omega)]
      refine (takeWhile_append_all ?_ ?_).2
      · intro x hx
        show ltKey (nodeAt (insertNew s k e lvl (descend s k 0 s.level)) x).key
          k = true
        rw [(insertNew_nodeAt_old s k e lvl _ x
          (h.mem x (chainA_sub_l0 s l0 k 0 x hx)).2).1]
        exact memA_lt s l0 k 0 x hx
      · intro a ha
        simp only [List.head?_cons, Option.some_inj] at ha
        subst ha
        show ltKey (nodeAt (insertNew s k e lvl (descend s k 0 s.level))
          s.nodes.length).key k = false
        rw [(insertNew_nodeAt_new s k e lvl _).1]
        exact ltKey_irrefl k
    rw [hB2]
    show (if (nodeAt (insertNew s k e lvl (descend s k 0 s.level))
          s.nodes.length).key = k
        then some (nodeAt (insertNew s k e lvl (descend s k 0 s.level))
          s.nodes.length).entry
        else none) = some e
    rw [(insertNew_nodeAt_new s k e lvl _).1, if_pos rfl,
        (insertNew_nodeAt_new s k e lvl _).2.1]

theorem memGet_put {m : SkipListM} {l0 : List Nat} (h : SLInv m l0)
    (k v : List Nat) {lvl : Nat} (hl1 : 1 ≤ lvl) (hl2 : lvl ≤ maxLevel) :
    memGet (memPut m k v lvl) k = some v := by
  unfold memGet memPut
  rw [slSearch_upsert h k ⟨k, v, false⟩ hl1 hl2]
  rfl

theorem memGet_delete {m : SkipListM} {l0 : List Nat} (h : SLInv m l0)
    (k : List Nat) {lvl : Nat} (hl1 : 1 ≤ lvl) (hl2 : lvl ≤ maxLevel) :
    slSearch (memDelete m k lvl) k = some ⟨k, [], true⟩ ∧
    memGet (memDelete m k lvl) k = none := by
  have hs := slSearch_upsert h k ⟨k, [], true⟩ hl1 hl2
  refine ⟨hs, ?_⟩
  unfold memGet memDelete
  rw [hs]
  rfl

theorem slinv_demoSL : SLInv demoSL [1] := by
  refine ⟨rfl, le_refl 1, by norm_num [demoSL, maxLevel], ?_, ?_, by simp, ?_, ?_⟩
  · intro x hx
    simp at hx
    subst hx
    exact ⟨by decide, by decide⟩
  · intro x hx
    simp at hx
    subst hx
    exact ⟨by decide, by decide⟩
  · intro x h1 h2
    have h2b : x < 2 := h2
    have hx : x = 1 := by omega
    simp [hx]
  · intro i hi
    cases i with
    | zero => exact IsChain.cons rfl (IsChain.nil rfl)
    | succ j =>
      have hl : levelList demoSL [1] (j + 1) = [] := by
        unfold levelList
        rw [List.filter_eq_nil]
        intro a ha
        simp at ha
        subst ha
        have hlen : (nodeAt demoSL 1).forward.length = 1 := rfl
        simp [hlen]
      rw [hl]
      refine IsChain.nil ?_
      show (List.replicate 15 (none : Option Nat)).getD j none = none
      exact getD_replicate_none 15 j

/-- C8: every sequence of Upserts starting from the fresh skip list
reaches a state satisfying the structural invariant; in any invariant
state the level-0 keys are strictly ascending, each level's node
sequence is a sublist of the level-0 sequence, and every node's forward
array length is at most maxLevel (16); an Upsert whose key already
belongs to the list rewrites that node's Entry in place and allocates no
new node; and randomLevel always returns a level in [1, 16]. -/
theorem skiplist_upsert_invariants :
    (∀ ops : List ((List Nat × EntryM) × List Nat),
      ∃ l0 : List Nat,
        SLInv (ops.foldl (fun t op => upsert t op.1.1 op.1.2 (randomLevel op.2))
          emptySL) l0) ∧
    (∀ (s : SkipListM) (l0 : List Nat), SLInv s l0 →
      List.Pairwise (fun a b => ltKey (nodeAt s a).key (nodeAt s b).key = true) l0 ∧
      (∀ i : Nat, List.Sublist (levelList s l0 i) (levelList s l0 0)) ∧
      (∀ x ∈ l0, (nodeAt s x).forward.length ≤ maxLevel)) ∧
    (∀ (s : SkipListM) (l0 k : List Nat) (e : EntryM) (lvl : Nat),
      SLInv s l0 → ∀ y ∈ l0, (nodeAt s y).key = k →
        upsert s k e lvl = setEntry s y e ∧
        (upsert s k e lvl).nodes.length = s.nodes.length) ∧
    (∀ coins : List Nat,
      1 ≤ randomLevel coins ∧ randomLevel coins ≤ maxLevel) := by
  refine ⟨?_, ?_, ?_, randomLevel_range⟩
  · intro ops
    exact slinv_fold ops emptySL [] slinv_emptySL
  · intro s l0 h
    refine ⟨h.sorted, ?_, ?_⟩
    · intro i
      rw [levelList_zero h]
      exact List.filter_sublist l0
    · intro x hx
      exact le_trans (h.hts x hx).2 h.levelUB
  · intro s l0 k e lvl h y hy hk
    rcases upsert_cases h k e lvl with ⟨z, hz, hkz, heq⟩ | ⟨habs, -⟩
    · have hyz : y = z := key_unique h hy hz (hk.trans hkz.symm)
      subst hyz
      exact ⟨heq, by rw [heq, setEntry_length]⟩
    · exact absurd hk (habs y hy)

theorem skiplist_upsert_invariants_witness :
    upsert demoSL [97] ⟨[97], [2], false⟩ 3 = setEntry demoSL 1 ⟨[97], [2], false⟩ ∧
    (upsert demoSL [97] ⟨[97], [2], false⟩ 3).nodes.length = demoSL.nodes.length :=
  skiplist_upsert_invariants.2.2.1 demoSL [1] [97] ⟨[97], [2], false⟩ 3 slinv_demoSL
    1 (by simp) rfl

/-- C10: the empty key is accepted on the whole write and read path: a
memtable Put of the empty key is returned by a subsequent Get of the
empty key, a Delete of the empty key stores a tombstone entry that makes
Get report not-present, and the WAL append operations serialize the
empty key as a record with keyLen = 0; no operation rejects it. -/
theorem empty_key_accepted :
    (∀ (m : SkipListM) (l0 : List Nat), SLInv m l0 →
      ∀ (v : List Nat) (lvl : Nat), 1 ≤ lvl → lvl ≤ maxLevel →
        memGet (memPut m [] v lvl) [] = some v) ∧
    (∀ (m : SkipListM) (l0 : List Nat), SLInv m l0 →
      ∀ lvl : Nat, 1 ≤ lvl → lvl ≤ maxLevel →
        slSearch (memDelete m [] lvl) [] = some ⟨[], [], true⟩ ∧
        memGet (memDelete m [] lvl) [] = none) ∧
    (∀ value : List Nat,
      appendPutBytes [] value = 0 :: (u32le 0 ++ (u32le value.length ++ value))) ∧
    appendDeleteBytes [] = 1 :: (u32le 0 ++ u32le 0) := by
  refine ⟨?_, ?_, ?_, rfl⟩
  · intro m l0 h v lvl hl1 hl2
    exact memGet_put h [] v hl1 hl2
  · intro m l0 h lvl hl1 hl2
    exact memGet_delete h [] hl1 hl2
  · intro v
    simp [appendPutBytes]

theorem empty_key_accepted_witness :
    memGet (memPut emptySL [] [7] 1) [] = some [7] ∧
    memGet (memDelete emptySL [] 1) [] = none :=
  ⟨empty_key_accepted.1 emptySL [] slinv_emptySL [7] 1 (by decide) (by decide),
   (empty_key_accepted.2.1 emptySL [] slinv_emptySL 1 (by decide) (by decide)).2⟩

end ForgeDB
